import Mathlib

/-!
Shallow embedding of the git-rescribe rebase planning and execution engine.

The embedding models:
* `extractOriginalHash`, `resolveContentStrategy`, `resolveParents`, `createPlan`
  (the Planner, `src/app/types.ts` planner section),
* the plan-file schema validation (`src/app/schema.ts`),
* `executeRescribe` (the Executor, `src/app/executor.ts`, plan-consuming version),
* `convertGitGraphToYaml`'s graph-to-descriptor core (the History Extractor).

External git calls (`getCommitInfo`, `getTreeHash`, `createCommit`,
`updateCurrentBranch`) are modelled as oracle functions; a failing call is an
oracle returning `none`.  JavaScript strings are Lean `String`s; the JS
`split(":")`, `substring` and `startsWith` operations are embedded as
executable functions over the underlying character lists.  JS `Map` (insertion
ordered, `set` overwrites in place) is an association list with an
order-preserving `mapSet`.
-/

deriving instance DecidableEq for Except

namespace Rescribe

/-- JS `s.split(":")` on the character list: always returns at least one
(possibly empty) group; a separator at either end yields an empty group. -/
def splitCharList : List Char → List (List Char)
  | [] => [[]]
  | c :: rest =>
    match splitCharList rest with
    | [] => [[c]]
    | g :: gs => if c = ':' then [] :: g :: gs else (c :: g) :: gs

/-- JS `s.split(":")`. -/
def splitOnColon (s : String) : List String :=
  (splitCharList s.data).map (fun l => ⟨l⟩)

/-- JS `s.substring(0, n)`. -/
def strTake (s : String) (n : Nat) : String := ⟨s.data.take n⟩

/-- JS `s.substring(n)`. -/
def strDrop (s : String) (n : Nat) : String := ⟨s.data.drop n⟩

/-- JS `s.startsWith(p)`. -/
def strStartsWith (s p : String) : Bool := p.data.isPrefixOf s.data

/-- JS truthiness of a possibly-absent string (`undefined`, `null` and `""`
are falsy). -/
def isTruthy : Option String → Bool
  | none => false
  | some s => s ≠ ""

/-- Embeds `formatIdentity` from `src/lib/git.ts`: `` `${name} <${email}>` ``. -/
def formatIdentity (name email : String) : String :=
  name ++ " <" ++ email ++ ">"

/-! ## JS `Map` as an insertion-ordered association list -/

/-- JS `Map.prototype.set`: overwrite in place if the key exists, else append. -/
def mapSet {α : Type} (m : List (String × α)) (k : String) (v : α) :
    List (String × α) :=
  if m.any (fun p => p.1 = k) then
    m.map (fun p => if p.1 = k then (k, v) else p)
  else
    m ++ [(k, v)]

/-- JS `Map.prototype.get` (`none` = `undefined`). -/
def mapGet {α : Type} (m : List (String × α)) (k : String) : Option α :=
  (m.find? (fun p => p.1 = k)).map (fun p => p.2)

/-! ## Data model (`src/app/types.ts`) -/

/-- Mirrors `Identity` from `src/app/types.ts`. -/
structure Identity where
  date : String
  identity : String
  deriving DecidableEq, Repr

/-- Mirrors `RescribeCommit` from `src/app/types.ts`: one user-facing commit
descriptor of the plan file. -/
structure RescribeCommit where
  author : Identity
  committer : Identity
  content : String
  message : String
  parents : List String
  deriving DecidableEq, Repr

/-- The record returned by `getCommitInfo` (`src/lib/git.ts`): live metadata
of an existing commit.  The `message` field carries the trimmed message, as
`getCommitInfo` trims it before returning. -/
structure CommitInfo where
  authorName : String
  authorEmail : String
  authorDate : String
  committerName : String
  committerEmail : String
  committerDate : String
  tree : String
  parents : List String
  message : String
  deriving DecidableEq, Repr

/-- The `action` field of a `CommitPlan`. -/
inductive Action where
  | reuse
  | create
  deriving DecidableEq, Repr

/-- Mirrors `CommitPlan` from the planner section of `src/app/types.ts`. -/
structure CommitPlan where
  commit : RescribeCommit
  originalHash : Option String
  action : Action
  changes : List String
  tree : String
  parents : List String
  deriving DecidableEq, Repr

/-- Errors thrown by the planner/extractor; the source throws `Error` with a
message, the embedding tags the throw site. -/
inductive PlanError where
  /-- Thrown as "Cannot use 'previous' for first commit". -/
  | refPrevious
  /-- Thrown as "No rewritten commit found for `h`". -/
  | refRewritten (h : String)
  /-- Thrown as "Unknown content strategy: `s`". -/
  | unknownStrategy (s : String)
  /-- an object-store accessor call on `h` failed -/
  | objectStore (h : String)
  deriving DecidableEq, Repr

/-- The object-store accessor oracles used during planning/extraction. -/
structure Oracles where
  getCommitInfo : String → Option CommitInfo
  getTreeHash : String → Option String

/-! ## Planner (`src/app/types.ts`) -/

/-- Embeds `extractOriginalHash`: strip the `commit:`/`diff:` prefix from `content`
(`content.split(":")` destructured as `[strategy, hash]`); `none` models the
JS `null`/`undefined` results. -/
def extractOriginalHash (content : String) : Option String :=
  match splitOnColon content with
  | strategy :: rest =>
    if strategy = "commit" ∨ strategy = "diff" then rest.head? else none
  | [] => none

/-- Embeds `resolveContentStrategy` (planner version, `src/app/types.ts`): `tree:`
returns the embedded hash, `commit:`/`diff:` look up the commit's tree via
`getTreeHash`, anything else throws.  A `tree:` content with no `:` part
returns the JS `undefined`, modelled as `""`. -/
def resolveContentStrategy (getTreeHash : String → Option String)
    (content : String) : Except PlanError String :=
  match splitOnColon content with
  | strategy :: rest =>
    if strategy = "tree" then
      .ok (rest.head?.getD "")
    else if strategy = "commit" ∨ strategy = "diff" then
      match getTreeHash (rest.head?.getD "") with
      | some t => .ok t
      | none => .error (.objectStore (rest.head?.getD ""))
    else
      .error (.unknownStrategy strategy)
  | [] => .error (.unknownStrategy "")

/-- Embeds `resolveContentStrategy` (executor version, `src/app/executor.ts`): the
`commit` and `diff` branches are written separately in the source but both run
`git rev-parse <hash>^{tree}`, modelled by the same `getTreeHash` oracle. -/
def resolveContentStrategyExec (getTreeHash : String → Option String)
    (content : String) : Except PlanError String :=
  match splitOnColon content with
  | strategy :: rest =>
    if strategy = "tree" then
      .ok (rest.head?.getD "")
    else if strategy = "commit" then
      match getTreeHash (rest.head?.getD "") with
      | some t => .ok t
      | none => .error (.objectStore (rest.head?.getD ""))
    else if strategy = "diff" then
      match getTreeHash (rest.head?.getD "") with
      | some t => .ok t
      | none => .error (.objectStore (rest.head?.getD ""))
    else
      .error (.unknownStrategy strategy)
  | [] => .error (.unknownStrategy "")

/-- The per-parent body of `resolveParents` (`src/app/types.ts`).
`!previousCommit` and `!rewritten` are JS falsiness checks, so `""` also
throws. -/
def resolveOneParent (previousCommit : Option String)
    (rewrittenMap : List (String × String)) (parent : String) :
    Except PlanError String :=
  if parent = "previous" then
    match previousCommit with
    | some prev => if prev = "" then .error .refPrevious else .ok prev
    | none => .error .refPrevious
  else if strStartsWith parent "rewritten:" then
    match mapGet rewrittenMap (strDrop parent "rewritten:".length) with
    | some rewritten =>
      if rewritten = "" then
        .error (.refRewritten (strDrop parent "rewritten:".length))
      else .ok rewritten
    | none => .error (.refRewritten (strDrop parent "rewritten:".length))
  else
    .ok parent

/-- Embeds `resolveParents` (`src/app/types.ts`): map each symbolic parent
reference to a concrete-or-placeholder hash, the first thrown error
propagating. -/
def resolveParents (parents : List String) (previousCommit : Option String)
    (rewrittenMap : List (String × String)) : Except PlanError (List String) :=
  match parents with
  | [] => .ok []
  | p :: rest =>
    match resolveOneParent previousCommit rewrittenMap p with
    | .error e => .error e
    | .ok r =>
      match resolveParents rest previousCommit rewrittenMap with
      | .error e => .error e
      | .ok rs => .ok (r :: rs)

/-- The `changes` accumulation of `createPlan` for a descriptor that has an
original commit: checks in source push order (content, parents, author
identity, author date, committer identity, committer date, message). -/
def computeChanges (info : CommitInfo) (c : RescribeCommit)
    (tree : String) (parents : List String) : List String :=
  (if info.tree ≠ tree then ["content"] else []) ++
  (if info.parents.length ≠ parents.length then ["parents"]
   else if (info.parents.zip parents).any
       (fun pr => ¬ strStartsWith pr.1 pr.2) then ["parents"] else []) ++
  (if formatIdentity info.authorName info.authorEmail ≠ c.author.identity then
    ["author identity"] else []) ++
  (if info.authorDate ≠ c.author.date then ["author date"] else []) ++
  (if formatIdentity info.committerName info.committerEmail ≠
      c.committer.identity then ["committer identity"] else []) ++
  (if info.committerDate ≠ c.committer.date then ["committer date"] else []) ++
  (if info.message ≠ c.message then ["message"] else [])

/-- The mutable loop state of `createPlan`: the replacement map and the
"previous resolved hash" cursor. -/
structure PlanState where
  rewrittenMap : List (String × String)
  previousCommit : Option String
  deriving DecidableEq, Repr

/-- One iteration of the `createPlan` loop (`src/app/types.ts`): resolve tree
and parents (in source order, so a tree failure wins over a parent failure),
diff against the original commit, classify reuse/create, update the cursor
and replacement map.  A descriptor whose extracted hash is absent or `""`
(JS-falsy) is a new commit. -/
def planOne (g : Oracles) (st : PlanState) (c : RescribeCommit) :
    Except PlanError (CommitPlan × PlanState) :=
  match resolveContentStrategy g.getTreeHash c.content with
  | .error e => .error e
  | .ok tree =>
    match resolveParents c.parents st.previousCommit st.rewrittenMap with
    | .error e => .error e
    | .ok parents =>
      match extractOriginalHash c.content with
      | some oh =>
        if oh = "" then
          .ok ({ commit := c, originalHash := some oh, action := .create,
                 changes := ["new commit"], tree := tree, parents := parents },
               ⟨st.rewrittenMap, some "pending"⟩)
        else
          match g.getCommitInfo oh with
          | none => .error (.objectStore oh)
          | some info =>
            if (computeChanges info c tree parents).isEmpty then
              .ok ({ commit := c, originalHash := some oh, action := .reuse,
                     changes := computeChanges info c tree parents,
                     tree := tree, parents := parents },
                   ⟨mapSet st.rewrittenMap oh oh, some oh⟩)
            else
              .ok ({ commit := c, originalHash := some oh, action := .create,
                     changes := computeChanges info c tree parents,
                     tree := tree, parents := parents },
                   ⟨mapSet st.rewrittenMap oh "pending", some "pending"⟩)
      | none =>
        .ok ({ commit := c, originalHash := none, action := .create,
               changes := ["new commit"], tree := tree, parents := parents },
             ⟨st.rewrittenMap, some "pending"⟩)

/-- The `createPlan` loop over all descriptors, exposing the final state. -/
def planFold (g : Oracles) : List RescribeCommit → PlanState →
    Except PlanError (List CommitPlan × PlanState)
  | [], st => .ok ([], st)
  | c :: cs, st =>
    match planOne g st c with
    | .error e => .error e
    | .ok (p, st') =>
      match planFold g cs st' with
      | .error e => .error e
      | .ok (ps, stf) => .ok (p :: ps, stf)

/-- Embeds `createPlan` (`src/app/types.ts`) on an already schema-validated
descriptor list. -/
def createPlan (g : Oracles) (cs : List RescribeCommit) :
    Except PlanError (List CommitPlan) :=
  (planFold g cs ⟨[], none⟩).map (fun r => r.1)

/-! ## Plan-file schema (`src/app/schema.ts`)

The YAML document is modelled by a generic `Yaml` value; the zod schema is a
recursive validator.  The three regexes are embedded as executable matchers
over the character list. -/

/-- A parsed YAML document (`other` stands for numbers, booleans, null, …). -/
inductive Yaml where
  | str (s : String)
  | list (xs : List Yaml)
  | map (kvs : List (String × Yaml))
  | other
  deriving Repr

/-- Key lookup in a YAML mapping. -/
def yamlLookup (kvs : List (String × Yaml)) (k : String) : Option Yaml :=
  (kvs.find? (fun p => p.1 = k)).map (fun p => p.2)

/-- Tests `[0-9a-f]` (the schema's character class). -/
def isHexDigit (c : Char) : Bool :=
  ('0' ≤ c && c ≤ '9') || ('a' ≤ c && c ≤ 'f')

/-- Matches `[0-9a-f]{7,40}` anchored on a whole character list. -/
def matchesHexRun (cs : List Char) : Bool :=
  cs.all isHexDigit && decide (7 ≤ cs.length) && decide (cs.length ≤ 40)

/-- Matches `^(tree|diff|commit):[0-9a-f]{7,40}$` (the `ContentSchema` refine). -/
def matchesContent (s : String) : Bool :=
  ["tree", "diff", "commit"].any (fun tag =>
    strStartsWith s (tag ++ ":") && matchesHexRun (s.data.drop (tag.length + 1)))

/-- The `ParentSchema` union: `previous`, `^rewritten:[0-9a-f]{7,40}$`, or
`^[0-9a-f]{7,40}$`. -/
def matchesParentRef (s : String) : Bool :=
  s = "previous" ||
  (strStartsWith s "rewritten:" && matchesHexRun (s.data.drop 10)) ||
  matchesHexRun s.data

/-- Tests `[^\n]` — what the JS regex `.` matches. -/
def noNewline (cs : List Char) : Bool := cs.all (fun c => c ≠ '\n')

/-- Every split of a character list into a prefix/suffix pair. -/
def splitsOf (cs : List Char) : List (List Char × List Char) :=
  (List.range (cs.length + 1)).map (fun i => (cs.take i, cs.drop i))

/-- Matches `^.+ <.+@.+>$` (the `IdentitySchema` regex): some decomposition
`a ++ " <" ++ b ++ "@" ++ c ++ ">"` with `a`, `b`, `c` nonempty and
newline-free. -/
def matchesIdentity (s : String) : Bool :=
  (splitsOf s.data).any (fun pr =>
    match pr.2 with
    | ' ' :: '<' :: rest =>
      decide (pr.1 ≠ []) && noNewline pr.1 &&
      (splitsOf rest).any (fun pr2 =>
        match pr2.2 with
        | '@' :: cc =>
          decide (pr2.1 ≠ []) && noNewline pr2.1 &&
          (match cc.getLast? with
           | some '>' => decide (cc.dropLast ≠ []) && noNewline cc.dropLast
           | _ => false)
        | _ => false)
    | _ => false)

/-- Sequential Option-parsing of a list (the zod array semantics: every
element must parse). -/
def parseListY {α : Type} (f : Yaml → Option α) : List Yaml → Option (List α)
  | [] => some []
  | y :: rest =>
    match f y with
    | none => none
    | some c =>
      match parseListY f rest with
      | none => none
      | some cs => some (c :: cs)

/-- Embeds the zod parse of `IdentitySchema`. -/
def parseIdentityY : Yaml → Option Identity
  | .map kvs =>
    match yamlLookup kvs "date" with
    | some (.str d) =>
      match yamlLookup kvs "identity" with
      | some (.str idn) =>
        if matchesIdentity idn then some ⟨d, idn⟩ else none
      | _ => none
    | _ => none
  | _ => none

/-- Embeds the zod parse of `ParentSchema`. -/
def parseParentY : Yaml → Option String
  | .str s => if matchesParentRef s then some s else none
  | _ => none

/-- Embeds the zod parse of `CommitSchema`. -/
def parseCommitY : Yaml → Option RescribeCommit
  | .map kvs =>
    match parseIdentityY ((yamlLookup kvs "author").getD .other) with
    | none => none
    | some author =>
      match parseIdentityY ((yamlLookup kvs "committer").getD .other) with
      | none => none
      | some committer =>
        match yamlLookup kvs "content" with
        | some (.str content) =>
          if matchesContent content then
            match yamlLookup kvs "message" with
            | some (.str message) =>
              match yamlLookup kvs "parents" with
              | some (.list items) =>
                match parseListY parseParentY items with
                | some parents =>
                  some ⟨author, committer, content, message, parents⟩
                | none => none
              | _ => none
            | _ => none
          else none
        | _ => none
  | _ => none

/-- Embeds the zod parse of `RebaseSchema` (`none` = a `ValidationError`). -/
def rebaseSchemaParse : Yaml → Option (List RescribeCommit)
  | .map kvs =>
    match yamlLookup kvs "commits" with
    | some (.list items) => parseListY parseCommitY items
    | _ => none
  | _ => none

/-- Errors of `createPlan` run from the raw document. -/
inductive TopError where
  | validation
  | plan (e : PlanError)
  deriving DecidableEq, Repr

/-- Runs `createPlan` from the parsed YAML document: schema validation happens
before the planning loop touches anything. -/
def createPlanFromYaml (g : Oracles) (doc : Yaml) :
    Except TopError (List CommitPlan) :=
  match rebaseSchemaParse doc with
  | none => .error .validation
  | some cs => (createPlan g cs).mapError .plan

/-! ## Executor (`src/app/executor.ts`, plan-consuming version) -/

/-- The argument record of a `createCommit` accessor call. -/
structure CreateArgs where
  tree : String
  parents : List String
  author : Identity
  committer : Identity
  message : String
  deriving DecidableEq, Repr

/-- An externally visible side effect of the Executor. -/
inductive Effect where
  | created (args : CreateArgs) (result : String)
  | branchUpdated (hash : String)
  deriving DecidableEq, Repr

/-- What the Executor computed for one processed entry. -/
structure ExecEntry where
  resolvedParents : List String
  newHash : String
  deriving DecidableEq, Repr

/-- The outcome of an Executor run: the effect trace, the per-entry results,
the executor-side replacement map, and `result` (`none` = a `createCommit`
call threw mid-run; `some fc` = the loop finished with final commit `fc`). -/
structure ExecOutcome where
  trace : List Effect
  entries : List ExecEntry
  rewrittenMap : List (String × String)
  result : Option (Option String)
  deriving DecidableEq, Repr

/-- Pending-placeholder resolution of one entry's parents: a `"pending"`
parent is replaced by the current final-commit cursor (`finalCommit!` in the
source: the non-null assertion is modelled as `getD ""`, unreachable from
planner output). -/
def resolvePending (parents : List String) (finalCommit : Option String) :
    List String :=
  parents.map (fun p => if p = "pending" then finalCommit.getD "" else p)

/-- The per-entry step of the `executeRescribe` loop: reuse takes
`originalHash!`, create calls the `createCommit` accessor (`none` = the call
threw). -/
def execStep (cc : CreateArgs → Option String) (cp : CommitPlan)
    (resolvedParents : List String) : Option (String × List Effect) :=
  match cp.action with
  | .reuse => some (cp.originalHash.getD "", [])
  | .create =>
    let args : CreateArgs :=
      ⟨cp.tree, resolvedParents, cp.commit.author, cp.commit.committer,
       cp.commit.message⟩
    match cc args with
    | some h => some (h, [.created args h])
    | none => none

/-- The `executeRescribe` loop over the plan entries. -/
def execLoop (cc : CreateArgs → Option String) :
    List CommitPlan → Option String → List (String × String) → ExecOutcome
  | [], finalCommit, rmap => ⟨[], [], rmap, some finalCommit⟩
  | cp :: rest, finalCommit, rmap =>
    let resolvedParents := resolvePending cp.parents finalCommit
    match execStep cc cp resolvedParents with
    | none => ⟨[], [], rmap, none⟩
    | some (newHash, effs) =>
      let rmap' := if isTruthy cp.originalHash then
        mapSet rmap (cp.originalHash.getD "") newHash else rmap
      let rec' := execLoop cc rest (some newHash) rmap'
      ⟨effs ++ rec'.trace, ⟨resolvedParents, newHash⟩ :: rec'.entries,
       rec'.rewrittenMap, rec'.result⟩

/-- The final branch update of `executeRescribe`: performed iff the loop
finished, the final commit is truthy, and `updateHead` holds. -/
def finishExec (updateHead : Bool) (o : ExecOutcome) : ExecOutcome :=
  match o.result with
  | some (some fc) =>
    if fc ≠ "" ∧ updateHead = true then
      { o with trace := o.trace ++ [.branchUpdated fc] }
    else o
  | _ => o

/-- Embeds `executeRescribe` (`src/app/executor.ts`): run the loop over the
plan entries, then optionally update the current branch. -/
def executeRescribe (cc : CreateArgs → Option String) (updateHead : Bool)
    (plan : List CommitPlan) : ExecOutcome :=
  finishExec updateHead (execLoop cc plan none [])

/-! ## History Extractor (`convertGitGraphToYaml`) -/

/-- The `commitIndexMap` of `convertGitGraphToYaml`: hash → index, built by a
`forEach`/`set` (a duplicate hash keeps its first position, last index). -/
def buildIndexMap (hashes : List String) : List (String × Nat) :=
  hashes.enum.foldl (fun m p => mapSet m p.2 p.1) []

/-- The symbolic parent references `convertGitGraphToYaml` derives for the
commit at `index` with declared parent list `parents`. -/
def parentRefsFor (idxMap : List (String × Nat)) (index : Nat)
    (parents : List String) : List String :=
  match parents with
  | [] => []
  | [p] =>
    match mapGet idxMap p with
    | some pi => if pi + 1 = index then ["previous"]
                 else ["rewritten:" ++ strTake p 7]
    | none => [strTake p 7]
  | _ =>
    parents.enum.map (fun q =>
      match mapGet idxMap q.2 with
      | some pi => if q.1 = 0 ∧ pi + 1 = index then "previous"
                   else "rewritten:" ++ strTake q.2 7
      | none => strTake q.2 7)

/-- The descriptor `convertGitGraphToYaml` builds for the commit at `q.1`
with full hash `q.2` and live metadata `info`. -/
def descriptorFor (idxMap : List (String × Nat)) (q : Nat × String)
    (info : CommitInfo) : RescribeCommit :=
  { author := ⟨info.authorDate,
               formatIdentity info.authorName info.authorEmail⟩,
    committer := ⟨info.committerDate,
                  formatIdentity info.committerName info.committerEmail⟩,
    content := "commit:" ++ strTake q.2 7,
    message := info.message,
    parents := parentRefsFor idxMap q.1 info.parents }

/-- The per-commit loop of `convertGitGraphToYaml` over the enumerated
`rev-list` output. -/
def convertEach (gci : String → Option CommitInfo)
    (idxMap : List (String × Nat)) :
    List (Nat × String) → Except PlanError (List RescribeCommit)
  | [] => .ok []
  | q :: rest =>
    match gci q.2 with
    | none => .error (.objectStore q.2)
    | some info =>
      match convertEach gci idxMap rest with
      | .error e => .error e
      | .ok ds => .ok (descriptorFor idxMap q info :: ds)

/-- The graph-to-descriptor core of `convertGitGraphToYaml`: one descriptor
per commit of the (already topologically ordered, oldest-first) `rev-list`
output, with `content = "commit:<short-hash>"` and symbolic parents. -/
def convertGitGraph (gci : String → Option CommitInfo) (hashes : List String) :
    Except PlanError (List RescribeCommit) :=
  convertEach gci (buildIndexMap hashes) hashes.enum

/-! ## Basic lemmas about the string and map embeddings -/

theorem splitCharList_no_colon (cs : List Char) (h : ':' ∉ cs) :
    splitCharList cs = [cs] := by
  induction cs with
  | nil => rfl
  | cons c rest ih =>
    have hc : ¬ c = ':' := fun e => h (e ▸ List.mem_cons_self c rest)
    rw [splitCharList, ih (fun hm => h (List.mem_cons_of_mem c hm))]
    simp [hc]

theorem splitCharList_append (t u : List Char) (ht : ':' ∉ t) (hu : ':' ∉ u) :
    splitCharList (t ++ ':' :: u) = [t, u] := by
  induction t with
  | nil =>
    rw [List.nil_append, splitCharList, splitCharList_no_colon u hu]
    simp
  | cons c rest ih =>
    have hc : ¬ c = ':' := fun e => ht (e ▸ List.mem_cons_self c rest)
    rw [List.cons_append, splitCharList,
        ih (fun hm => ht (List.mem_cons_of_mem c hm))]
    simp [hc]

theorem splitOnColon_tag (tag u : String) (ht : ':' ∉ tag.data)
    (hu : ':' ∉ u.data) : splitOnColon (tag ++ ":" ++ u) = [tag, u] := by
  unfold splitOnColon
  have hd : (tag ++ ":" ++ u).data = tag.data ++ ':' :: u.data := by
    simp [String.data_append]
  rw [hd, splitCharList_append _ _ ht hu]
  rfl


theorem mapGet_nil {α : Type} (k : String) :
    mapGet ([] : List (String × α)) k = none := rfl

theorem mapGet_cons {α : Type} (p : String × α) (rest : List (String × α))
    (k : String) :
    mapGet (p :: rest) k = if p.1 = k then some p.2 else mapGet rest k := by
  unfold mapGet
  rw [List.find?_cons]
  by_cases hp : p.1 = k
  · simp [hp]
  · simp [hp]

theorem mapGet_mapSet_self {α : Type} (m : List (String × α)) (k : String)
    (v : α) : mapGet (mapSet m k v) k = some v := by
  unfold mapSet
  by_cases hmem : m.any (fun p => p.1 = k)
  · rw [if_pos hmem]
    unfold mapGet
    rw [List.find?_map]
    have hpf : ((fun p : String × α => decide (p.1 = k)) ∘
        (fun p : String × α => if p.1 = k then (k, v) else p)) =
        (fun q : String × α => decide (q.1 = k)) := by
      funext q
      by_cases hq : q.1 = k <;> simp [hq]
    rw [hpf]
    have hsome : (m.find? (fun q : String × α => decide (q.1 = k))).isSome := by
      rw [List.find?_isSome]
      rcases List.any_eq_true.mp hmem with ⟨x, hx, hxk⟩
      exact ⟨x, hx, hxk⟩
    rcases Option.isSome_iff_exists.mp hsome with ⟨q₀, hq₀⟩
    have hq₀k : q₀.1 = k := by simpa using List.find?_some hq₀
    rw [hq₀]
    simp [hq₀k]
  · rw [if_neg hmem]
    unfold mapGet
    rw [List.find?_append]
    have hnone : m.find? (fun p : String × α => decide (p.1 = k)) = none := by
      rw [List.find?_eq_none]
      intro x hx
      simp only [decide_eq_true_eq]
      intro hxk
      exact hmem (List.any_eq_true.mpr ⟨x, hx, by simp [hxk]⟩)
    rw [hnone]
    simp [List.find?_cons]

theorem mapGet_mapSet_ne {α : Type} (m : List (String × α)) (k k' : String)
    (v : α) (hne : k' ≠ k) : mapGet (mapSet m k v) k' = mapGet m k' := by
  unfold mapSet
  by_cases hmem : m.any (fun p => p.1 = k)
  · rw [if_pos hmem]
    unfold mapGet
    rw [List.find?_map]
    have hkk : ¬ k = k' := fun e => hne e.symm
    have hpf : ((fun p : String × α => decide (p.1 = k')) ∘
        (fun p : String × α => if p.1 = k then (k, v) else p)) =
        (fun q : String × α => decide (q.1 = k')) := by
      funext q
      by_cases hq : q.1 = k
      · have h2 : ¬ q.1 = k' := by rw [hq]; exact hkk
        simp [hq, hkk, h2]
      · simp [hq]
    rw [hpf]
    rcases hfind : m.find? (fun q : String × α => decide (q.1 = k')) with _ | q₀
    · simp
    · have hq' : q₀.1 = k' := by simpa using List.find?_some hfind
      have hq₀ : ¬ q₀.1 = k := by rw [hq']; exact hne
      simp [hq₀]
  · rw [if_neg hmem]
    unfold mapGet
    rw [List.find?_append]
    have hkk' : ¬ k = k' := fun e => hne e.symm
    have hlast : List.find? (fun p : String × α => decide (p.1 = k')) [(k, v)] =
        none := by
      simp [List.find?_cons, hkk']
    rw [hlast]
    simp

theorem mapSet_fresh {α : Type} (m : List (String × α)) (k : String) (v : α)
    (h : ∀ p ∈ m, p.1 ≠ k) : mapSet m k v = m ++ [(k, v)] := by
  unfold mapSet
  rw [if_neg]
  intro hany
  rcases List.any_eq_true.mp hany with ⟨p, hp, hpk⟩
  exact h p hp (by simpa using hpk)

theorem mapGet_mem {α : Type} (m : List (String × α)) (k : String) (v : α)
    (h : mapGet m k = some v) : (k, v) ∈ m := by
  unfold mapGet at h
  rcases hfind : m.find? (fun p : String × α => decide (p.1 = k)) with _ | q
  · rw [hfind] at h; cases h
  · rw [hfind] at h
    simp only [Option.map_some'] at h
    have hq1 : q.1 = k := by simpa using List.find?_some hfind
    have hqm := List.mem_of_find?_eq_some hfind
    rcases q with ⟨k₀, v₀⟩
    simp only at hq1 h
    subst hq1
    injection h with h2
    subst h2
    exact hqm

/-! ## Executor lemmas -/

theorem execLoop_trace_created (cc : CreateArgs → Option String)
    (plan : List CommitPlan) :
    ∀ (fc : Option String) (rmap : List (String × String)),
      ∀ e ∈ (execLoop cc plan fc rmap).trace, ∃ args r, e = .created args r := by
  induction plan with
  | nil => intro fc rmap e he; simp [execLoop] at he
  | cons cp rest ih =>
    intro fc rmap e he
    simp only [execLoop] at he
    rcases hstep : execStep cc cp (resolvePending cp.parents fc)
      with _ | ⟨newHash, effs⟩
    · simp only [hstep] at he
      simp at he
    · simp only [hstep] at he
      simp only [List.mem_append] at he
      rcases he with he | he
      · cases hact : cp.action with
        | reuse =>
          simp only [execStep, hact, Option.some.injEq, Prod.mk.injEq] at hstep
          rw [← hstep.2] at he
          simp at he
        | create =>
          simp only [execStep, hact] at hstep
          rcases hcc : cc ⟨cp.tree, resolvePending cp.parents fc,
              cp.commit.author, cp.commit.committer, cp.commit.message⟩
            with _ | h₀
          · rw [hcc] at hstep; cases hstep
          · rw [hcc] at hstep
            simp only [Option.some.injEq, Prod.mk.injEq] at hstep
            rw [← hstep.2] at he
            simp only [List.mem_singleton] at he
            exact ⟨_, _, he⟩
      · exact ih _ _ e he

theorem execLoop_entries_length (cc : CreateArgs → Option String)
    (plan : List CommitPlan) :
    ∀ (fc : Option String) (rmap : List (String × String)) (fc' : Option String),
      (execLoop cc plan fc rmap).result = some fc' →
      (execLoop cc plan fc rmap).entries.length = plan.length := by
  induction plan with
  | nil => intro fc rmap fc' _; simp [execLoop]
  | cons cp rest ih =>
    intro fc rmap fc' hres
    simp only [execLoop] at hres ⊢
    rcases hstep : execStep cc cp (resolvePending cp.parents fc)
      with _ | ⟨newHash, effs⟩
    · simp only [hstep] at hres
      exact Option.noConfusion hres
    · simp only [hstep] at hres ⊢
      simp only [List.length_cons]
      rw [ih _ _ fc' hres]

/-! ## Claims -/

/-- C10: executing an empty plan performs no effect at all: the trace is
empty (no commit is created and the branch is never updated, whatever the
`updateHead` option), no entry is processed, and the returned final commit is
the JS `null`. -/
theorem C10_empty_plan_no_effects :
    ∀ (cc : CreateArgs → Option String) (updateHead : Bool),
      executeRescribe cc updateHead [] =
        { trace := [], entries := [], rewrittenMap := [], result := some none } := by
  intro cc updateHead
  rfl

/-- C7: the Executor's trace holds at most one branch update; a branch update
happens only as the very last effect of a run whose loop completed (one
processed entry per plan entry, successful result); and when a `createCommit`
call throws mid-run the trace holds only commit creations, so the branch
pointer is never advanced on failure. -/
theorem C7_branch_update_only_after_success :
    ∀ (cc : CreateArgs → Option String) (updateHead : Bool)
      (plan : List CommitPlan),
      ((executeRescribe cc updateHead plan).trace.countP
          (fun e => match e with | .branchUpdated _ => true | _ => false) ≤ 1) ∧
      (∀ h, Effect.branchUpdated h ∈ (executeRescribe cc updateHead plan).trace →
         (executeRescribe cc updateHead plan).result = some (some h) ∧
         (executeRescribe cc updateHead plan).trace.getLast? =
           some (.branchUpdated h) ∧
         (executeRescribe cc updateHead plan).entries.length = plan.length) ∧
      ((executeRescribe cc updateHead plan).result = none →
         ∀ e ∈ (executeRescribe cc updateHead plan).trace,
           ∃ args r, e = .created args r) := by
  intro cc updateHead plan
  have hloop := execLoop_trace_created cc plan none []
  have hnobu : ∀ h, Effect.branchUpdated h ∉ (execLoop cc plan none []).trace := by
    intro h hmem
    rcases hloop _ hmem with ⟨args, r, he⟩
    cases he
  have hcount : (execLoop cc plan none []).trace.countP
      (fun e => match e with | .branchUpdated _ => true | _ => false) = 0 := by
    rw [List.countP_eq_zero]
    intro e he
    rcases hloop e he with ⟨args, r, he'⟩
    subst he'
    simp
  unfold executeRescribe finishExec
  rcases hres : (execLoop cc plan none []).result with _ | fc
  · simp only [hres]
    refine ⟨by simp [hcount], ?_, ?_⟩
    · intro h hmem
      exact absurd hmem (hnobu h)
    · intro _ e he
      exact hloop e he
  · rcases fc with _ | fc₀
    · simp only [hres]
      refine ⟨by simp [hcount], ?_, ?_⟩
      · intro h hmem
        exact absurd hmem (hnobu h)
      · intro _ e he
        exact hloop e he
    · simp only [hres]
      by_cases hcond : fc₀ ≠ "" ∧ updateHead = true
      · rw [if_pos hcond]
        refine ⟨?_, ?_, ?_⟩
        · simp [List.countP_append, hcount, List.countP_cons]
        · intro h hmem
          simp only [List.mem_append, List.mem_singleton] at hmem
          rcases hmem with hmem | hmem
          · exact absurd hmem (hnobu h)
          · cases hmem
            exact ⟨rfl, List.getLast?_concat _,
                   execLoop_entries_length cc plan none [] _ hres⟩
        · intro hnone
          cases hnone
      · rw [if_neg hcond]
        refine ⟨by simp [hcount], ?_, ?_⟩
        · intro h hmem
          exact absurd hmem (hnobu h)
        · intro _ e he
          exact hloop e he

/-- Equivalence of the two copies of `resolveContentStrategy` (planner in
`src/app/types.ts`, executor in `src/app/executor.ts`) against the same
tree-lookup oracle. -/
theorem resolveContentStrategyExec_eq (gth : String → Option String)
    (content : String) :
    resolveContentStrategyExec gth content = resolveContentStrategy gth content := by
  unfold resolveContentStrategy resolveContentStrategyExec
  rcases hsp : splitOnColon content with _ | ⟨strategy, rest⟩
  · rfl
  · by_cases h1 : strategy = "tree"
    · simp [h1]
    · by_cases h2 : strategy = "commit"
      · simp [h1, h2]
      · by_cases h3 : strategy = "diff"
        · simp [h1, h2, h3]
        · simp [h1, h2, h3]

/-- C8: content resolution returns the embedded hash unchanged for a `tree:`
strategy; for `commit:` and `diff:` it returns the named commit's tree (so
`diff:` degrades to exactly the `commit:` behaviour); any other tag raises an
error; and the executor's copy agrees with the planner's everywhere. -/
theorem C8_content_strategy :
    ∀ (gth : String → Option String) (u : String), ':' ∉ u.data →
      (resolveContentStrategy gth ("tree" ++ ":" ++ u) = .ok u ∧
       resolveContentStrategy gth ("commit" ++ ":" ++ u) =
         (match gth u with
          | some t => .ok t
          | none => .error (.objectStore u)) ∧
       resolveContentStrategy gth ("diff" ++ ":" ++ u) =
         resolveContentStrategy gth ("commit" ++ ":" ++ u)) ∧
      (∀ tag : String, ':' ∉ tag.data → tag ≠ "tree" → tag ≠ "commit" →
         tag ≠ "diff" →
         resolveContentStrategy gth (tag ++ ":" ++ u) =
           .error (.unknownStrategy tag)) ∧
      (∀ content : String,
         resolveContentStrategyExec gth content =
           resolveContentStrategy gth content) := by
  intro gth u hu
  refine ⟨⟨?_, ?_, ?_⟩, ?_, fun content => resolveContentStrategyExec_eq gth content⟩
  · unfold resolveContentStrategy
    rw [splitOnColon_tag "tree" u (by decide) hu]
    simp
  · unfold resolveContentStrategy
    rw [splitOnColon_tag "commit" u (by decide) hu]
    simp
  · unfold resolveContentStrategy
    rw [splitOnColon_tag "diff" u (by decide) hu,
        splitOnColon_tag "commit" u (by decide) hu]
    simp
  · intro tag ht h1 h2 h3
    unfold resolveContentStrategy
    rw [splitOnColon_tag tag u ht hu]
    simp [h1, h2, h3]

/-- Witness for C8 at a concrete oracle and hash. -/
theorem C8_content_strategy_w :
    resolveContentStrategy (fun _ => some "T0") ("tree" ++ ":" ++ "abc1234") =
      .ok "abc1234" ∧
    resolveContentStrategy (fun _ => some "T0") ("commit" ++ ":" ++ "abc1234") =
      (match (fun _ : String => some "T0") "abc1234" with
       | some t => .ok t
       | none => .error (.objectStore "abc1234")) ∧
    resolveContentStrategy (fun _ => some "T0") ("diff" ++ ":" ++ "abc1234") =
      resolveContentStrategy (fun _ => some "T0") ("commit" ++ ":" ++ "abc1234") :=
  (C8_content_strategy (fun _ => some "T0") "abc1234" (by decide)).1

/-- Oracles for the C1 scenario: original commit `aaaaaaa` exists with tree
`t0` and live message `different`, so its descriptor below is classified
`create`. -/
def exOracleC1 : Oracles :=
  ⟨fun h => if h = "aaaaaaa" then
      some ⟨"A", "a@x", "2025-01-01T00:00:00Z", "A", "a@x",
            "2025-01-01T00:00:00Z", "t0", [], "different"⟩
    else none,
   fun h => if h = "aaaaaaa" then some "t0" else none⟩

/-- A fixed author/committer identity for the C1 scenario. -/
def exIdentC1 : Identity := ⟨"2025-01-01T00:00:00Z", "A <a@x>"⟩

/-- The C1 scenario plan: entry 0 rewrites original `aaaaaaa` (message edit),
entry 1 is a new commit, entry 2 references entry 0 via `rewritten:aaaaaaa`. -/
def exPlanC1 : List RescribeCommit :=
  [⟨exIdentC1, exIdentC1, "commit:aaaaaaa", "zero", []⟩,
   ⟨exIdentC1, exIdentC1, "tree:bbbbbbb", "one", ["previous"]⟩,
   ⟨exIdentC1, exIdentC1, "tree:ccccccc", "two", ["rewritten:aaaaaaa"]⟩]

/-- A deterministic commit-creation oracle for the C1 scenario, injective on
the message. -/
def exCCC1 : CreateArgs → Option String := fun a => some ("new-" ++ a.message)

/-- C1 fails on the code: descriptor 2's sole parent is
`rewritten:aaaaaaa` and the entry whose `originalHash = aaaaaaa` (entry 0)
produces `new-zero`, yet execution resolves descriptor 2's parent to
`new-one` — the hash of the immediately preceding entry — because the
planner collapsed the `rewritten:` reference to the bare `pending`
placeholder and the executor replaces every `pending` with the previous
entry's hash (its `rewrittenMap` is built but never read). -/
theorem C1_rewritten_to_created_entry_misresolved :
    (createPlan exOracleC1 exPlanC1).map (fun plans =>
        (plans.map CommitPlan.originalHash,
         (executeRescribe exCCC1 true plans).entries.map ExecEntry.newHash,
         (executeRescribe exCCC1 true plans).entries.map
           ExecEntry.resolvedParents)) =
      .ok ([some "aaaaaaa", none, none],
           ["new-zero", "new-one", "new-two"],
           [[], ["new-zero"], ["new-one"]]) ∧
    exPlanC1.map RescribeCommit.parents = [[], ["previous"], ["rewritten:aaaaaaa"]] ∧
    ("new-one" : String) ≠ "new-zero" := by
  refine ⟨?_, by decide, by decide⟩
  decide

/-! ## Planner lemmas -/

theorem computeChanges_eq_nil_iff (info : CommitInfo) (c : RescribeCommit)
    (tree : String) (parents : List String) :
    computeChanges info c tree parents = [] ↔
      (info.tree = tree ∧
       (info.parents.length = parents.length ∧
        ∀ pr ∈ info.parents.zip parents, strStartsWith pr.1 pr.2 = true) ∧
       formatIdentity info.authorName info.authorEmail = c.author.identity ∧
       info.authorDate = c.author.date ∧
       formatIdentity info.committerName info.committerEmail =
         c.committer.identity ∧
       info.committerDate = c.committer.date ∧
       info.message = c.message) := by
  unfold computeChanges
  constructor
  · intro h
    simp only [List.append_eq_nil] at h
    obtain ⟨⟨⟨⟨⟨⟨h1, h2⟩, h3⟩, h4⟩, h5⟩, h6⟩, h7⟩ := h
    have c1 : info.tree = tree := by
      by_contra hc
      rw [if_pos hc] at h1
      cases h1
    have c2 : info.parents.length = parents.length := by
      by_contra hc
      rw [if_pos hc] at h2
      cases h2
    have c2b : ∀ pr ∈ info.parents.zip parents, strStartsWith pr.1 pr.2 = true := by
      intro pr hpr
      by_contra hc
      rw [if_neg (not_not_intro c2)] at h2
      rw [if_pos (List.any_eq_true.mpr ⟨pr, hpr, by simp [hc]⟩)] at h2
      cases h2
    have c3 : formatIdentity info.authorName info.authorEmail =
        c.author.identity := by
      by_contra hc
      rw [if_pos hc] at h3
      cases h3
    have c4 : info.authorDate = c.author.date := by
      by_contra hc
      rw [if_pos hc] at h4
      cases h4
    have c5 : formatIdentity info.committerName info.committerEmail =
        c.committer.identity := by
      by_contra hc
      rw [if_pos hc] at h5
      cases h5
    have c6 : info.committerDate = c.committer.date := by
      by_contra hc
      rw [if_pos hc] at h6
      cases h6
    have c7 : info.message = c.message := by
      by_contra hc
      rw [if_pos hc] at h7
      cases h7
    exact ⟨c1, ⟨c2, c2b⟩, c3, c4, c5, c6, c7⟩
  · rintro ⟨c1, ⟨c2, c2b⟩, c3, c4, c5, c6, c7⟩
    have h2any : ¬ ((info.parents.zip parents).any
        (fun pr => ¬ strStartsWith pr.1 pr.2) = true) := by
      rw [List.any_eq_true]
      rintro ⟨pr, hpr, hf⟩
      have := c2b pr hpr
      simp [this] at hf
    rw [if_neg (not_not_intro c1), if_neg (not_not_intro c2), if_neg h2any,
        if_neg (not_not_intro c3), if_neg (not_not_intro c4),
        if_neg (not_not_intro c5), if_neg (not_not_intro c6),
        if_neg (not_not_intro c7)]
    rfl

theorem planOne_ok_commit (g : Oracles) (st : PlanState) (c : RescribeCommit)
    (p : CommitPlan) (st' : PlanState) (h : planOne g st c = .ok (p, st')) :
    p.commit = c ∧ p.originalHash = extractOriginalHash c.content := by
  unfold planOne at h
  split at h
  · exact Except.noConfusion h
  split at h
  · exact Except.noConfusion h
  split at h
  case _ oh hoh =>
    split at h
    · cases h
      exact ⟨rfl, hoh.symm⟩
    split at h
    · exact Except.noConfusion h
    split at h
    · cases h
      exact ⟨rfl, hoh.symm⟩
    · cases h
      exact ⟨rfl, hoh.symm⟩
  case _ hoh =>
    cases h
    exact ⟨rfl, hoh.symm⟩

theorem planOne_classification (g : Oracles) (st : PlanState)
    (c : RescribeCommit) (p : CommitPlan) (st' : PlanState)
    (h : planOne g st c = .ok (p, st')) :
    ((p.action = .create) ↔
      (isTruthy p.originalHash = false ∨
       ∃ oh info, p.originalHash = some oh ∧ ¬ oh = "" ∧
         g.getCommitInfo oh = some info ∧
         ¬ (info.tree = p.tree ∧
            (info.parents.length = p.parents.length ∧
             ∀ pr ∈ info.parents.zip p.parents, strStartsWith pr.1 pr.2 = true) ∧
            formatIdentity info.authorName info.authorEmail =
              p.commit.author.identity ∧
            info.authorDate = p.commit.author.date ∧
            formatIdentity info.committerName info.committerEmail =
              p.commit.committer.identity ∧
            info.committerDate = p.commit.committer.date ∧
            info.message = p.commit.message))) ∧
    ((p.action = .reuse) ↔ (p.changes = [] ∧ isTruthy p.originalHash = true)) := by
  unfold planOne at h
  split at h
  · exact Except.noConfusion h
  rename_i tree hct
  split at h
  · exact Except.noConfusion h
  rename_i parents hrp
  split at h
  case _ oh hoh =>
    split at h
    case isTrue hempty =>
      cases h
      constructor
      · constructor
        · intro _
          exact Or.inl (by simp [isTruthy, hempty])
        · intro _
          rfl
      · constructor
        · intro hact
          exact Action.noConfusion hact
        · rintro ⟨h1, h2⟩
          simp [isTruthy, hempty] at h2
    case isFalse hempty =>
      split at h
      · exact Except.noConfusion h
      rename_i info hinfo
      split at h
      case isTrue hcs =>
        cases h
        have hconj := (computeChanges_eq_nil_iff info c tree parents).mp
          (List.isEmpty_iff.mp hcs)
        constructor
        · constructor
          · intro hact
            exact Action.noConfusion hact
          · rintro (hfalse | ⟨oh', info', hoh', hne', hinfo', hnc⟩)
            · simp [isTruthy, hempty] at hfalse
            · simp only [Option.some.injEq] at hoh'
              subst hoh'
              rw [hinfo] at hinfo'
              injection hinfo' with hinfo'
              subst hinfo'
              exact absurd hconj hnc
        · exact ⟨fun _ => ⟨List.isEmpty_iff.mp hcs, by simp [isTruthy, hempty]⟩,
                 fun _ => rfl⟩
      case isFalse hcs =>
        cases h
        have hnnil : ¬ computeChanges info c tree parents = [] := fun hnil =>
          hcs (List.isEmpty_iff.mpr hnil)
        constructor
        · refine ⟨fun _ => Or.inr ⟨oh, info, rfl, hempty, hinfo, ?_⟩,
                  fun _ => rfl⟩
          intro hconj
          exact hnnil ((computeChanges_eq_nil_iff info c tree parents).mpr hconj)
        · constructor
          · intro hact
            exact Action.noConfusion hact
          · rintro ⟨h1, h2⟩
            exact absurd h1 hnnil
  case _ hoh =>
    cases h
    constructor
    · exact ⟨fun _ => Or.inl (by simp [isTruthy]), fun _ => rfl⟩
    · constructor
      · intro hact
        exact Action.noConfusion hact
      · rintro ⟨h1, h2⟩
        simp [isTruthy] at h2

theorem planFold_mem (g : Oracles) (cs : List RescribeCommit) :
    ∀ (st : PlanState) (plans : List CommitPlan) (stf : PlanState),
      planFold g cs st = .ok (plans, stf) →
      ∀ p ∈ plans, ∃ st₁ c st₂, c ∈ cs ∧ planOne g st₁ c = .ok (p, st₂) := by
  induction cs with
  | nil =>
    intro st plans stf h p hp
    simp only [planFold] at h
    cases h
    simp at hp
  | cons c rest ih =>
    intro st plans stf h p hp
    simp only [planFold] at h
    split at h
    · exact Except.noConfusion h
    rename_i p₁ st₁ heq1
    split at h
    · exact Except.noConfusion h
    rename_i ps stf2 heq2
    cases h
    rcases List.mem_cons.mp hp with hp | hp
    · subst hp
      exact ⟨st, c, st₁, List.mem_cons_self c rest, heq1⟩
    · rcases ih _ _ _ heq2 p hp with ⟨sa, ca, sb, hca, hpa⟩
      exact ⟨sa, ca, sb, List.mem_cons_of_mem c hca, hpa⟩

theorem createPlan_ok (g : Oracles) (cs : List RescribeCommit)
    (plans : List CommitPlan) (h : createPlan g cs = .ok plans) :
    ∃ stf, planFold g cs ⟨[], none⟩ = .ok (plans, stf) := by
  unfold createPlan at h
  rcases h2 : planFold g cs ⟨[], none⟩ with e | ⟨ps, stf⟩
  · rw [h2] at h
    exact Except.noConfusion h
  · rw [h2] at h
    simp only [Except.map] at h
    injection h with h
    refine ⟨stf, ?_⟩
    rw [h]

/-- C3: for every entry the Planner emits, `action = create` iff the
descriptor has no (truthy) original hash or at least one of tree, parent
sequence (position-wise, by hash-prefix match), author identity, author date,
committer identity, committer date, or message differs from the original
commit's live metadata; equivalently `action = reuse` iff `changes` is empty
and an original hash is present. -/
theorem C3_reuse_create_classification :
    ∀ (g : Oracles) (cs : List RescribeCommit) (plans : List CommitPlan),
      createPlan g cs = .ok plans →
      ∀ p ∈ plans,
        ((p.action = .create) ↔
          (isTruthy p.originalHash = false ∨
           ∃ oh info, p.originalHash = some oh ∧ ¬ oh = "" ∧
             g.getCommitInfo oh = some info ∧
             ¬ (info.tree = p.tree ∧
                (info.parents.length = p.parents.length ∧
                 ∀ pr ∈ info.parents.zip p.parents,
                   strStartsWith pr.1 pr.2 = true) ∧
                formatIdentity info.authorName info.authorEmail =
                  p.commit.author.identity ∧
                info.authorDate = p.commit.author.date ∧
                formatIdentity info.committerName info.committerEmail =
                  p.commit.committer.identity ∧
                info.committerDate = p.commit.committer.date ∧
                info.message = p.commit.message))) ∧
        ((p.action = .reuse) ↔
          (p.changes = [] ∧ isTruthy p.originalHash = true)) := by
  intro g cs plans h p hp
  rcases createPlan_ok g cs plans h with ⟨stf, hf⟩
  rcases planFold_mem g cs _ _ _ hf p hp with ⟨st₁, c, st₂, hc, hp1⟩
  exact planOne_classification g st₁ c p st₂ hp1

/-- A fixed identity for witness scenarios. -/
def wIdent : Identity := ⟨"2025-01-01T00:00:00Z", "W <w@x>"⟩

/-- Oracles that fail every lookup (never consulted by `tree:` contents). -/
def wOracles : Oracles := ⟨fun _ => none, fun _ => none⟩

/-- A descriptor carrying its tree directly, with no original commit. -/
def wDescTree : RescribeCommit := ⟨wIdent, wIdent, "tree:bbbbbbb", "m", []⟩

/-- The plan entry `createPlan` derives for `wDescTree`. -/
def wPlanTree : CommitPlan :=
  ⟨wDescTree, none, .create, ["new commit"], "bbbbbbb", []⟩

/-- Witness for C3 at a concrete one-entry plan. -/
theorem C3_reuse_create_classification_w :
    ((wPlanTree.action = .create) ↔
      (isTruthy wPlanTree.originalHash = false ∨
       ∃ oh info, wPlanTree.originalHash = some oh ∧ ¬ oh = "" ∧
         wOracles.getCommitInfo oh = some info ∧
         ¬ (info.tree = wPlanTree.tree ∧
            (info.parents.length = wPlanTree.parents.length ∧
             ∀ pr ∈ info.parents.zip wPlanTree.parents,
               strStartsWith pr.1 pr.2 = true) ∧
            formatIdentity info.authorName info.authorEmail =
              wPlanTree.commit.author.identity ∧
            info.authorDate = wPlanTree.commit.author.date ∧
            formatIdentity info.committerName info.committerEmail =
              wPlanTree.commit.committer.identity ∧
            info.committerDate = wPlanTree.commit.committer.date ∧
            info.message = wPlanTree.commit.message))) ∧
    ((wPlanTree.action = .reuse) ↔
      (wPlanTree.changes = [] ∧ isTruthy wPlanTree.originalHash = true)) :=
  C3_reuse_create_classification wOracles [wDescTree] [wPlanTree] (by decide)
    wPlanTree (by decide)

/-! ## Reference-resolution characterization -/

/-- A truthy value is recorded under key `k` (what a `rewritten:` lookup
needs to succeed). -/
def keyAvailable (m : List (String × String)) (k : String) : Prop :=
  ∃ v, mapGet m k = some v ∧ v ≠ ""

/-- The cursor holds a truthy hash (what a `previous` reference needs). -/
def prevTruthyO (o : Option String) : Prop :=
  ∃ s, o = some s ∧ s ≠ ""

/-- The truthy original hash a descriptor contributes to the replacement
map (empty for `tree:` contents and falsy hashes). -/
def truthyOf (c : RescribeCommit) : List String :=
  match extractOriginalHash c.content with
  | some k => if k = "" then [] else [k]
  | none => []

/-- The truthy original hashes of the first `i` descriptors. -/
def truthyOriginalsBefore (cs : List RescribeCommit) (i : Nat) : List String :=
  ((cs.take i).map truthyOf).flatten

theorem mem_truthyOf (c : RescribeCommit) (k : String) :
    k ∈ truthyOf c ↔ (extractOriginalHash c.content = some k ∧ k ≠ "") := by
  unfold truthyOf
  rcases hoh : extractOriginalHash c.content with _ | oh
  · simp
  · dsimp only
    by_cases he : oh = ""
    · subst he
      rw [if_pos rfl]
      constructor
      · intro h
        exact absurd h (List.not_mem_nil k)
      · rintro ⟨h1, h2⟩
        injection h1 with h1
        exact absurd h1.symm h2
    · rw [if_neg he]
      constructor
      · intro h
        rcases List.mem_singleton.mp h with rfl
        exact ⟨rfl, he⟩
      · rintro ⟨h1, h2⟩
        injection h1 with h1
        rw [← h1]
        exact List.mem_singleton.mpr rfl

theorem truthyOriginalsBefore_zero (cs : List RescribeCommit) :
    truthyOriginalsBefore cs 0 = [] := rfl

theorem truthyOriginalsBefore_succ_cons (c : RescribeCommit)
    (rest : List RescribeCommit) (i : Nat) :
    truthyOriginalsBefore (c :: rest) (i + 1) =
      truthyOf c ++ truthyOriginalsBefore rest i := by
  simp [truthyOriginalsBefore, List.take_succ_cons]

/-- What it takes for one symbolic parent reference to resolve. -/
def Resolvable (prev : Option String) (m : List (String × String))
    (p : String) : Prop :=
  (p = "previous" → prevTruthyO prev) ∧
  (p ≠ "previous" → strStartsWith p "rewritten:" = true →
    keyAvailable m (strDrop p "rewritten:".length))

theorem resolveOneParent_previous (prev : Option String)
    (m : List (String × String)) :
    resolveOneParent prev m "previous" =
      (match prev with
       | some s => if s = "" then .error .refPrevious else .ok s
       | none => .error .refPrevious) := by
  unfold resolveOneParent
  rw [if_pos rfl]

theorem resolveOneParent_rw_found (prev : Option String)
    (m : List (String × String)) (p v : String) (hp : ¬ p = "previous")
    (hrw : strStartsWith p "rewritten:" = true)
    (hget : mapGet m (strDrop p "rewritten:".length) = some v) :
    resolveOneParent prev m p =
      (if v = "" then .error (.refRewritten (strDrop p "rewritten:".length))
       else .ok v) := by
  unfold resolveOneParent
  rw [if_neg hp, if_pos hrw, hget]

theorem resolveOneParent_rw_missing (prev : Option String)
    (m : List (String × String)) (p : String) (hp : ¬ p = "previous")
    (hrw : strStartsWith p "rewritten:" = true)
    (hget : mapGet m (strDrop p "rewritten:".length) = none) :
    resolveOneParent prev m p =
      .error (.refRewritten (strDrop p "rewritten:".length)) := by
  unfold resolveOneParent
  rw [if_neg hp, if_pos hrw, hget]

theorem resolveOneParent_direct (prev : Option String)
    (m : List (String × String)) (p : String) (hp : ¬ p = "previous")
    (hrw : ¬ strStartsWith p "rewritten:" = true) :
    resolveOneParent prev m p = .ok p := by
  unfold resolveOneParent
  rw [if_neg hp, if_neg hrw]

theorem resolveOneParent_ok_iff (prev : Option String)
    (m : List (String × String)) (p : String) :
    (∃ r, resolveOneParent prev m p = .ok r) ↔ Resolvable prev m p := by
  unfold Resolvable
  by_cases hp : p = "previous"
  · subst hp
    rw [resolveOneParent_previous]
    rcases prev with _ | s
    · constructor
      · rintro ⟨r, hr⟩
        exact Except.noConfusion hr
      · rintro ⟨h1, h2⟩
        rcases h1 rfl with ⟨s, hs, _⟩
        exact Option.noConfusion hs
    · dsimp only
      by_cases hs : s = ""
      · rw [if_pos hs]
        constructor
        · rintro ⟨r, hr⟩
          exact Except.noConfusion hr
        · rintro ⟨h1, h2⟩
          rcases h1 rfl with ⟨s', hs', hs2⟩
          injection hs' with hs'
          exact (hs2 (by rw [← hs', hs])).elim
      · rw [if_neg hs]
        constructor
        · intro _
          exact ⟨fun _ => ⟨s, rfl, hs⟩, fun hne _ => absurd rfl hne⟩
        · intro _
          exact ⟨s, rfl⟩
  · by_cases hrw : strStartsWith p "rewritten:" = true
    · rcases hget : mapGet m (strDrop p "rewritten:".length) with _ | v
      · rw [resolveOneParent_rw_missing prev m p hp hrw hget]
        constructor
        · rintro ⟨r, hr⟩
          exact Except.noConfusion hr
        · rintro ⟨h1, h2⟩
          rcases h2 hp hrw with ⟨v, hv, _⟩
          rw [hget] at hv
          exact Option.noConfusion hv
      · rw [resolveOneParent_rw_found prev m p v hp hrw hget]
        by_cases hv : v = ""
        · rw [if_pos hv]
          constructor
          · rintro ⟨r, hr⟩
            exact Except.noConfusion hr
          · rintro ⟨h1, h2⟩
            rcases h2 hp hrw with ⟨v', hv', hv2⟩
            rw [hget] at hv'
            injection hv' with hv'
            exact (hv2 (by rw [← hv', hv])).elim
        · rw [if_neg hv]
          constructor
          · intro _
            exact ⟨fun hpp => absurd hpp hp, fun _ _ => ⟨v, hget, hv⟩⟩
          · intro _
            exact ⟨v, rfl⟩
    · rw [resolveOneParent_direct prev m p hp hrw]
      constructor
      · intro _
        exact ⟨fun hpp => absurd hpp hp, fun _ hr => absurd hr hrw⟩
      · intro _
        exact ⟨p, rfl⟩

theorem resolveOneParent_error_kind (prev : Option String)
    (m : List (String × String)) (p : String) (e : PlanError)
    (h : resolveOneParent prev m p = .error e) :
    e = .refPrevious ∨ ∃ u, e = .refRewritten u := by
  by_cases hp : p = "previous"
  · subst hp
    rw [resolveOneParent_previous] at h
    rcases prev with _ | s
    · injection h with h
      exact Or.inl h.symm
    · dsimp only at h
      by_cases hs : s = ""
      · rw [if_pos hs] at h
        injection h with h
        exact Or.inl h.symm
      · rw [if_neg hs] at h
        exact Except.noConfusion h
  · by_cases hrw : strStartsWith p "rewritten:" = true
    · rcases hget : mapGet m (strDrop p "rewritten:".length) with _ | v
      · rw [resolveOneParent_rw_missing prev m p hp hrw hget] at h
        injection h with h
        exact Or.inr ⟨_, h.symm⟩
      · rw [resolveOneParent_rw_found prev m p v hp hrw hget] at h
        by_cases hv : v = ""
        · rw [if_pos hv] at h
          injection h with h
          exact Or.inr ⟨_, h.symm⟩
        · rw [if_neg hv] at h
          exact Except.noConfusion h
    · rw [resolveOneParent_direct prev m p hp hrw] at h
      exact Except.noConfusion h

theorem resolveParents_ok_iff (ps : List String) (prev : Option String)
    (m : List (String × String)) :
    (∃ rs, resolveParents ps prev m = .ok rs) ↔
      ∀ p ∈ ps, ∃ r, resolveOneParent prev m p = .ok r := by
  induction ps with
  | nil =>
    simp [resolveParents]
  | cons p rest ih =>
    constructor
    · rintro ⟨rs, hrs⟩
      unfold resolveParents at hrs
      split at hrs
      · exact Except.noConfusion hrs
      rename_i r hr
      split at hrs
      · exact Except.noConfusion hrs
      rename_i rs' hrest
      intro q hq
      rcases List.mem_cons.mp hq with hq | hq
      · subst hq
        exact ⟨r, hr⟩
      · exact (ih.mp ⟨rs', hrest⟩) q hq
    · intro hall
      rcases hall p (List.mem_cons_self p rest) with ⟨r, hr⟩
      rcases ih.mpr (fun q hq => hall q (List.mem_cons_of_mem p hq))
        with ⟨rs, hrs⟩
      refine ⟨r :: rs, ?_⟩
      unfold resolveParents
      rw [hr, hrs]

theorem resolveParents_error_mem (ps : List String) (prev : Option String)
    (m : List (String × String)) (e : PlanError)
    (h : resolveParents ps prev m = .error e) :
    ∃ p ∈ ps, resolveOneParent prev m p = .error e := by
  induction ps with
  | nil => exact Except.noConfusion h
  | cons p rest ih =>
    unfold resolveParents at h
    split at h
    case _ e' he =>
      injection h with h
      subst h
      exact ⟨p, List.mem_cons_self p rest, he⟩
    split at h
    case _ e' he =>
      injection h with h
      subst h
      rcases ih he with ⟨q, hq, hqe⟩
      exact ⟨q, List.mem_cons_of_mem p hq, hqe⟩
    · exact Except.noConfusion h

theorem mapSet_mem {α : Type} (m : List (String × α)) (k₀ : String) (v₀ : α) :
    ∀ k v, (k, v) ∈ mapSet m k₀ v₀ → (k, v) ∈ m ∨ k = k₀ := by
  unfold mapSet
  by_cases hmem : m.any (fun p => p.1 = k₀)
  · rw [if_pos hmem]
    intro k v hkv
    rcases List.mem_map.mp hkv with ⟨q, hq, hfq⟩
    by_cases hq1 : q.1 = k₀
    · rw [if_pos hq1] at hfq
      have : k₀ = k := congrArg Prod.fst hfq
      exact Or.inr this.symm
    · rw [if_neg hq1] at hfq
      subst hfq
      exact Or.inl hq
  · rw [if_neg hmem]
    intro k v hkv
    rcases List.mem_append.mp hkv with hkv | hkv
    · exact Or.inl hkv
    · exact Or.inr (congrArg Prod.fst (List.mem_singleton.mp hkv))

theorem planOne_ok_parents (g : Oracles) (st : PlanState) (c : RescribeCommit)
    (p : CommitPlan) (st' : PlanState) (h : planOne g st c = .ok (p, st')) :
    ∃ rs, resolveParents c.parents st.previousCommit st.rewrittenMap = .ok rs := by
  unfold planOne at h
  split at h
  · exact Except.noConfusion h
  rename_i tree hct
  split at h
  · exact Except.noConfusion h
  rename_i parents hrp
  exact ⟨parents, hrp⟩

theorem planOne_state (g : Oracles) (st : PlanState) (c : RescribeCommit)
    (p : CommitPlan) (st' : PlanState) (h : planOne g st c = .ok (p, st')) :
    prevTruthyO st'.previousCommit ∧
    (∀ k, keyAvailable st'.rewrittenMap k ↔
      (keyAvailable st.rewrittenMap k ∨
       (extractOriginalHash c.content = some k ∧ k ≠ ""))) := by
  unfold planOne at h
  split at h
  · exact Except.noConfusion h
  rename_i tree hct
  split at h
  · exact Except.noConfusion h
  rename_i parents hrp
  split at h
  case _ oh hoh =>
    split at h
    case isTrue hempty =>
      cases h
      subst hempty
      refine ⟨⟨"pending", rfl, by decide⟩, ?_⟩
      intro k
      constructor
      · exact Or.inl
      · rintro (hk | ⟨h1, h2⟩)
        · exact hk
        · rw [hoh] at h1
          injection h1 with h1
          exact absurd h1.symm h2
    case isFalse hempty =>
      split at h
      · exact Except.noConfusion h
      rename_i info hinfo
      split at h
      case isTrue hcs =>
        cases h
        refine ⟨⟨oh, rfl, hempty⟩, ?_⟩
        intro k
        by_cases hk : k = oh
        · subst hk
          constructor
          · intro _
            exact Or.inr ⟨hoh, hempty⟩
          · intro _
            exact ⟨k, mapGet_mapSet_self _ _ _, hempty⟩
        · unfold keyAvailable
          rw [mapGet_mapSet_ne _ _ _ _ hk]
          constructor
          · exact Or.inl
          · rintro (hka | ⟨h1, h2⟩)
            · exact hka
            · rw [hoh] at h1
              injection h1 with h1
              exact absurd h1.symm hk
      case isFalse hcs =>
        cases h
        refine ⟨⟨"pending", rfl, by decide⟩, ?_⟩
        intro k
        by_cases hk : k = oh
        · subst hk
          constructor
          · intro _
            exact Or.inr ⟨hoh, hempty⟩
          · intro _
            exact ⟨"pending", mapGet_mapSet_self _ _ _, by decide⟩
        · unfold keyAvailable
          rw [mapGet_mapSet_ne _ _ _ _ hk]
          constructor
          · exact Or.inl
          · rintro (hka | ⟨h1, h2⟩)
            · exact hka
            · rw [hoh] at h1
              injection h1 with h1
              exact absurd h1.symm hk
  case _ hoh =>
    cases h
    refine ⟨⟨"pending", rfl, by decide⟩, ?_⟩
    intro k
    constructor
    · exact Or.inl
    · rintro (hk | ⟨h1, h2⟩)
      · exact hk
      · rw [hoh] at h1
        exact Option.noConfusion h1

theorem planOne_keys_mem (g : Oracles) (st : PlanState) (c : RescribeCommit)
    (p : CommitPlan) (st' : PlanState) (h : planOne g st c = .ok (p, st')) :
    ∀ k v, (k, v) ∈ st'.rewrittenMap →
      (k, v) ∈ st.rewrittenMap ∨
      (extractOriginalHash c.content = some k ∧ k ≠ "") := by
  unfold planOne at h
  split at h
  · exact Except.noConfusion h
  rename_i tree hct
  split at h
  · exact Except.noConfusion h
  rename_i parents hrp
  split at h
  case _ oh hoh =>
    split at h
    case isTrue hempty =>
      cases h
      intro k v hkv
      exact Or.inl hkv
    case isFalse hempty =>
      split at h
      · exact Except.noConfusion h
      rename_i info hinfo
      split at h
      case isTrue hcs =>
        cases h
        intro k v hkv
        rcases mapSet_mem st.rewrittenMap oh oh k v hkv with hm | hk
        · exact Or.inl hm
        · subst hk
          exact Or.inr ⟨hoh, hempty⟩
      case isFalse hcs =>
        cases h
        intro k v hkv
        rcases mapSet_mem st.rewrittenMap oh "pending" k v hkv with hm | hk
        · exact Or.inl hm
        · subst hk
          exact Or.inr ⟨hoh, hempty⟩
  case _ hoh =>
    cases h
    intro k v hkv
    exact Or.inl hkv

theorem planOne_error_parents (g : Oracles) (st : PlanState)
    (c : RescribeCommit) (e : PlanError) (h : planOne g st c = .error e)
    (hct : ∃ t, resolveContentStrategy g.getTreeHash c.content = .ok t)
    (hi : ∀ oh, extractOriginalHash c.content = some oh → ¬ oh = "" →
      (g.getCommitInfo oh).isSome = true) :
    resolveParents c.parents st.previousCommit st.rewrittenMap = .error e := by
  unfold planOne at h
  split at h
  case _ e' hct2 =>
    rcases hct with ⟨t, hct⟩
    rw [hct] at hct2
    exact Except.noConfusion hct2
  rename_i tree hct2
  split at h
  case _ e' hrp =>
    injection h with h
    subst h
    exact hrp
  rename_i parents hrp
  split at h
  case _ oh hoh =>
    split at h
    · exact Except.noConfusion h
    split at h
    case _ hinfo =>
      rename_i hempty xs
      have hs := hi oh hoh hempty
      rw [hinfo] at hs
      exact Bool.noConfusion hs
    split at h <;> exact Except.noConfusion h
  case _ hoh =>
    exact Except.noConfusion h

theorem planOne_ok_of (g : Oracles) (st : PlanState) (c : RescribeCommit)
    (hct : ∃ t, resolveContentStrategy g.getTreeHash c.content = .ok t)
    (hrp : ∃ rs, resolveParents c.parents st.previousCommit st.rewrittenMap = .ok rs)
    (hi : ∀ oh, extractOriginalHash c.content = some oh → ¬ oh = "" →
      (g.getCommitInfo oh).isSome = true) :
    ∃ r, planOne g st c = .ok r := by
  rcases hct with ⟨t, hct⟩
  rcases hrp with ⟨rs, hrp⟩
  unfold planOne
  rw [hct]
  dsimp only
  rw [hrp]
  dsimp only
  rcases hoh : extractOriginalHash c.content with _ | oh
  · exact ⟨_, rfl⟩
  · dsimp only
    by_cases hempty : oh = ""
    · rw [if_pos hempty]
      exact ⟨_, rfl⟩
    · rw [if_neg hempty]
      have hs := hi oh hoh hempty
      rcases Option.isSome_iff_exists.mp hs with ⟨info, hinfo⟩
      rw [hinfo]
      dsimp only
      by_cases hcs : (computeChanges info c t rs).isEmpty
      · rw [if_pos hcs]
        exact ⟨_, rfl⟩
      · rw [if_neg hcs]
        exact ⟨_, rfl⟩

/-- All symbolic references of the descriptor list can be resolved when
planning starts from state `st`: `previous` needs a truthy cursor only on the
very first entry, and a `rewritten:` reference needs its hash available in
`st`'s map or recorded as a truthy original hash of an earlier entry. -/
def RefsOK (st : PlanState) (cs : List RescribeCommit) : Prop :=
  ∀ i c, cs.get? i = some c → ∀ p ∈ c.parents,
    (p = "previous" → i = 0 → prevTruthyO st.previousCommit) ∧
    (p ≠ "previous" → strStartsWith p "rewritten:" = true →
      (keyAvailable st.rewrittenMap (strDrop p "rewritten:".length) ∨
       strDrop p "rewritten:".length ∈ truthyOriginalsBefore cs i))

theorem planFold_ok_refs (g : Oracles) (cs : List RescribeCommit) :
    ∀ (st : PlanState) (plans : List CommitPlan) (stf : PlanState),
      planFold g cs st = .ok (plans, stf) → RefsOK st cs := by
  induction cs with
  | nil =>
    intro st plans stf _ i c hc p hp
    exact absurd hc (by simp)
  | cons c rest ih =>
    intro st plans stf h i c' hc' p hp
    simp only [planFold] at h
    split at h
    · exact Except.noConfusion h
    rename_i p₁ st₁ h1
    split at h
    · exact Except.noConfusion h
    rename_i ps stf2 h2
    rcases i with _ | i
    · rw [List.get?_cons_zero] at hc'
      injection hc' with hc'
      subst hc'
      rcases planOne_ok_parents g st c p₁ st₁ h1 with ⟨rs, hrs⟩
      have hres := (resolveParents_ok_iff _ _ _).mp ⟨rs, hrs⟩ p hp
      have hr := (resolveOneParent_ok_iff _ _ _).mp hres
      constructor
      · intro hprev _
        exact hr.1 hprev
      · intro hne hrw
        exact Or.inl (hr.2 hne hrw)
    · rw [List.get?_cons_succ] at hc'
      have hrefs := ih st₁ ps stf2 h2 i c' hc' p hp
      have hstate := planOne_state g st c p₁ st₁ h1
      constructor
      · intro hprev hi0
        exact absurd hi0 (Nat.succ_ne_zero i)
      · intro hne hrw
        rw [truthyOriginalsBefore_succ_cons]
        rcases hrefs.2 hne hrw with hka | htb
        · rcases (hstate.2 _).mp hka with hka' | hex
          · exact Or.inl hka'
          · exact Or.inr (List.mem_append.mpr
              (Or.inl ((mem_truthyOf c _).mpr hex)))
        · exact Or.inr (List.mem_append.mpr (Or.inr htb))

theorem planFold_ok_of_refs (g : Oracles) (cs : List RescribeCommit) :
    ∀ (st : PlanState),
      (∀ c ∈ cs, ∃ t, resolveContentStrategy g.getTreeHash c.content = .ok t) →
      (∀ c ∈ cs, ∀ oh, extractOriginalHash c.content = some oh → ¬ oh = "" →
         (g.getCommitInfo oh).isSome = true) →
      RefsOK st cs → ∃ r, planFold g cs st = .ok r := by
  induction cs with
  | nil =>
    intro st _ _ _
    exact ⟨([], st), rfl⟩
  | cons c rest ih =>
    intro st hc hi hrefs
    have hparents : ∃ rs,
        resolveParents c.parents st.previousCommit st.rewrittenMap = .ok rs := by
      rw [resolveParents_ok_iff]
      intro p hp
      rw [resolveOneParent_ok_iff]
      have hcond := hrefs 0 c rfl p hp
      constructor
      · intro hprev
        exact hcond.1 hprev rfl
      · intro hne hrw
        rcases hcond.2 hne hrw with hka | htb
        · exact hka
        · rw [truthyOriginalsBefore_zero] at htb
          exact absurd htb (List.not_mem_nil _)
    rcases planOne_ok_of g st c (hc c (List.mem_cons_self c rest)) hparents
        (hi c (List.mem_cons_self c rest)) with ⟨⟨p₁, st₁⟩, h1⟩
    have hstate := planOne_state g st c p₁ st₁ h1
    have hrefs2 : RefsOK st₁ rest := by
      intro i c' hc' p hp
      have hcond := hrefs (i + 1) c'
        (by rw [List.get?_cons_succ]; exact hc') p hp
      constructor
      · intro hprev hi0
        exact hstate.1
      · intro hne hrw
        rcases hcond.2 hne hrw with hka | htb
        · exact Or.inl ((hstate.2 _).mpr (Or.inl hka))
        · rw [truthyOriginalsBefore_succ_cons] at htb
          rcases List.mem_append.mp htb with htb | htb
          · exact Or.inl ((hstate.2 _).mpr
              (Or.inr ((mem_truthyOf c _).mp htb)))
          · exact Or.inr htb
    rcases ih st₁ (fun c' h' => hc c' (List.mem_cons_of_mem c h'))
        (fun c' h' => hi c' (List.mem_cons_of_mem c h')) hrefs2
      with ⟨⟨ps, stf⟩, h2⟩
    refine ⟨(p₁ :: ps, stf), ?_⟩
    simp only [planFold, h1, h2]

theorem planFold_error_mem (g : Oracles) (cs : List RescribeCommit) :
    ∀ (st : PlanState) (e : PlanError), planFold g cs st = .error e →
      ∃ c ∈ cs, ∃ st₁, planOne g st₁ c = .error e := by
  induction cs with
  | nil =>
    intro st e h
    exact Except.noConfusion h
  | cons c rest ih =>
    intro st e h
    simp only [planFold] at h
    split at h
    case _ e' h1 =>
      injection h with h
      subst h
      exact ⟨c, List.mem_cons_self c rest, st, h1⟩
    rename_i p₁ st₁ h1
    split at h
    case _ e' h2 =>
      injection h with h
      subst h
      rcases ih st₁ _ h2 with ⟨c', hc', st₂, h3⟩
      exact ⟨c', List.mem_cons_of_mem c hc', st₂, h3⟩
    · exact Except.noConfusion h

theorem createPlan_error_iff (g : Oracles) (cs : List RescribeCommit)
    (e : PlanError) :
    createPlan g cs = .error e ↔ planFold g cs ⟨[], none⟩ = .error e := by
  unfold createPlan
  rcases h2 : planFold g cs ⟨[], none⟩ with e' | r
  · simp [Except.map]
  · simp [Except.map]

/-- The static condition C5 names: a `previous` reference on the very first
entry, or a `rewritten:` reference whose hash is not a truthy original hash
of an earlier entry. -/
def hasBadRef (cs : List RescribeCommit) : Prop :=
  ∃ i c, cs.get? i = some c ∧ ∃ p ∈ c.parents,
    ((p = "previous" ∧ i = 0) ∨
     (strStartsWith p "rewritten:" = true ∧
      strDrop p "rewritten:".length ∉ truthyOriginalsBefore cs i))

/-- C5: with content resolution and metadata lookups succeeding, `createPlan`
fails iff some descriptor uses `previous` on the very first entry or a
`rewritten:` hash not recorded as a truthy original hash of an earlier entry,
and any such failure is one of the two reference errors.  The planner has no
commit-creation oracle at all, so the object store is untouched by such a
failure. -/
theorem C5_reference_error_iff :
    ∀ (g : Oracles) (cs : List RescribeCommit),
      (∀ c ∈ cs, ∃ t, resolveContentStrategy g.getTreeHash c.content = .ok t) →
      (∀ c ∈ cs, ∀ oh, extractOriginalHash c.content = some oh → ¬ oh = "" →
         (g.getCommitInfo oh).isSome = true) →
      (((∃ e, createPlan g cs = .error e) ↔ hasBadRef cs) ∧
       (∀ e, createPlan g cs = .error e →
          e = .refPrevious ∨ ∃ u, e = .refRewritten u)) := by
  intro g cs hc hi
  constructor
  · constructor
    · rintro ⟨e, he⟩
      rw [createPlan_error_iff] at he
      by_contra hbad
      have hrefs : RefsOK ⟨[], none⟩ cs := by
        intro i c hic p hp
        constructor
        · intro hprev hi0
          exact absurd ⟨i, c, hic, p, hp, Or.inl ⟨hprev, hi0⟩⟩ hbad
        · intro hne hrw
          by_cases htb : strDrop p "rewritten:".length ∈
              truthyOriginalsBefore cs i
          · exact Or.inr htb
          · exact absurd ⟨i, c, hic, p, hp, Or.inr ⟨hrw, htb⟩⟩ hbad
      rcases planFold_ok_of_refs g cs ⟨[], none⟩ hc hi hrefs with ⟨r, hr⟩
      rw [he] at hr
      exact Except.noConfusion hr
    · intro hbad
      rcases hres : planFold g cs ⟨[], none⟩ with e | ⟨plans, stf⟩
      · exact ⟨e, (createPlan_error_iff g cs e).mpr hres⟩
      · exfalso
        have hrefs := planFold_ok_refs g cs ⟨[], none⟩ plans stf hres
        rcases hbad with ⟨i, c, hic, p, hp, hbad⟩
        rcases hbad with ⟨hprev, hi0⟩ | ⟨hrw, htb⟩
        · rcases (hrefs i c hic p hp).1 hprev hi0 with ⟨s, hs, _⟩
          exact Option.noConfusion hs
        · have hne : p ≠ "previous" := fun hpp =>
            absurd (hpp ▸ hrw) (by decide)
          rcases (hrefs i c hic p hp).2 hne hrw with hka | htb2
          · rcases hka with ⟨v, hv, _⟩
            rw [mapGet_nil] at hv
            exact Option.noConfusion hv
          · exact htb htb2
  · intro e he
    rw [createPlan_error_iff] at he
    rcases planFold_error_mem g cs ⟨[], none⟩ e he with ⟨c, hcm, st₁, h1⟩
    have hrp := planOne_error_parents g st₁ c e h1 (hc c hcm) (hi c hcm)
    rcases resolveParents_error_mem _ _ _ e hrp with ⟨p, hpm, hpe⟩
    exact resolveOneParent_error_kind _ _ _ e hpe

/-- A descriptor whose single parent reference is `previous` (invalid as the
first entry of a plan). -/
def wDescBadPrev : RescribeCommit :=
  ⟨wIdent, wIdent, "tree:bbbbbbb", "m", ["previous"]⟩

/-- Witness for C5 at a one-entry plan using `previous` on the first entry. -/
theorem C5_reference_error_iff_w :
    (((∃ e, createPlan wOracles [wDescBadPrev] = .error e) ↔
        hasBadRef [wDescBadPrev]) ∧
     (∀ e, createPlan wOracles [wDescBadPrev] = .error e →
        e = .refPrevious ∨ ∃ u, e = .refRewritten u)) :=
  C5_reference_error_iff wOracles [wDescBadPrev]
    (by
      intro c hcm
      rw [List.mem_singleton] at hcm
      subst hcm
      exact ⟨"bbbbbbb", by decide⟩)
    (by
      intro c hcm oh hext hne
      rw [List.mem_singleton] at hcm
      subst hcm
      have hnone : extractOriginalHash wDescBadPrev.content = none := by decide
      rw [hnone] at hext
      exact Option.noConfusion hext)

theorem planFold_keys_mem (g : Oracles) (cs : List RescribeCommit) :
    ∀ (st : PlanState) (plans : List CommitPlan) (stf : PlanState),
      planFold g cs st = .ok (plans, stf) →
      ∀ k v, (k, v) ∈ stf.rewrittenMap →
        (k, v) ∈ st.rewrittenMap ∨
        ∃ c ∈ cs, extractOriginalHash c.content = some k ∧ k ≠ "" := by
  induction cs with
  | nil =>
    intro st plans stf h k v hkv
    simp only [planFold] at h
    cases h
    exact Or.inl hkv
  | cons c rest ih =>
    intro st plans stf h k v hkv
    simp only [planFold] at h
    split at h
    · exact Except.noConfusion h
    rename_i p₁ st₁ h1
    split at h
    · exact Except.noConfusion h
    rename_i ps stf2 h2
    cases h
    rcases ih st₁ _ _ h2 k v hkv with hm | ⟨c', hc', hx⟩
    · rcases planOne_keys_mem g st c p₁ st₁ h1 k v hm with hm' | hx
      · exact Or.inl hm'
      · exact Or.inr ⟨c, List.mem_cons_self c rest, hx⟩
    · exact Or.inr ⟨c', List.mem_cons_of_mem c hc', hx⟩

theorem extractOriginalHash_commit_or_diff (content k : String)
    (h : extractOriginalHash content = some k) :
    ∃ rest, splitOnColon content = "commit" :: rest ∨
            splitOnColon content = "diff" :: rest := by
  unfold extractOriginalHash at h
  split at h
  case _ strategy rest hsp =>
    split at h
    case isTrue hcd =>
      rcases hcd with hcd | hcd <;> subst hcd
      · exact ⟨rest, Or.inl hsp⟩
      · exact ⟨rest, Or.inr hsp⟩
    case isFalse hcd =>
      exact Option.noConfusion h
  case _ hsp =>
    exact Option.noConfusion h

theorem mem_truthyOriginalsBefore (cs : List RescribeCommit) (k : String)
    (i : Nat) :
    k ∈ truthyOriginalsBefore cs i ↔
      ∃ c ∈ cs.take i, extractOriginalHash c.content = some k ∧ k ≠ "" := by
  unfold truthyOriginalsBefore
  rw [List.mem_flatten]
  constructor
  · rintro ⟨l, hl, hkl⟩
    rcases List.mem_map.mp hl with ⟨c, hc, rfl⟩
    exact ⟨c, hc, (mem_truthyOf c k).mp hkl⟩
  · rintro ⟨c, hc, hx⟩
    exact ⟨truthyOf c, List.mem_map.mpr ⟨c, hc, rfl⟩, (mem_truthyOf c k).mpr hx⟩

/-- C9: every key of the final replacement map is the truthy original hash of
some entry whose content used the `commit:`/`diff:` strategy;
`extractOriginalHash` yields a hash only for those two strategies (so a
`tree:` content never contributes a key); in every successfully planned list
each `rewritten:` reference names a truthy original hash of an earlier entry
— hence a `rewritten:` reference to a hash introduced only via `tree:` can
never be part of a successful plan; and membership in the earlier-originals
list means exactly that an earlier `commit:`/`diff:` entry recorded it. -/
theorem C9_replacement_map_scope :
    ∀ (g : Oracles) (cs : List RescribeCommit) (plans : List CommitPlan)
      (stf : PlanState),
      planFold g cs ⟨[], none⟩ = .ok (plans, stf) →
      ((∀ k v, (k, v) ∈ stf.rewrittenMap →
         ∃ c ∈ cs, extractOriginalHash c.content = some k ∧ k ≠ "") ∧
       (∀ content k, extractOriginalHash content = some k →
          ∃ rest, splitOnColon content = "commit" :: rest ∨
                  splitOnColon content = "diff" :: rest) ∧
       (∀ i c, cs.get? i = some c → ∀ p ∈ c.parents,
          strStartsWith p "rewritten:" = true →
          strDrop p "rewritten:".length ∈ truthyOriginalsBefore cs i) ∧
       (∀ k i, k ∈ truthyOriginalsBefore cs i ↔
          ∃ c ∈ cs.take i,
            extractOriginalHash c.content = some k ∧ k ≠ "")) := by
  intro g cs plans stf hres
  refine ⟨?_, fun content k h => extractOriginalHash_commit_or_diff content k h,
          ?_, fun k i => mem_truthyOriginalsBefore cs k i⟩
  · intro k v hkv
    rcases planFold_keys_mem g cs ⟨[], none⟩ plans stf hres k v hkv
      with hm | hx
    · exact absurd hm (List.not_mem_nil _)
    · exact hx
  · intro i c hic p hp hrw
    have hne : p ≠ "previous" := fun hpp => absurd (hpp ▸ hrw) (by decide)
    rcases (planFold_ok_refs g cs ⟨[], none⟩ plans stf hres i c hic p hp).2
        hne hrw with hka | htb
    · rcases hka with ⟨v, hv, _⟩
      rw [mapGet_nil] at hv
      exact Option.noConfusion hv
    · exact htb

/-- Witness for C9 at a concrete one-entry plan. -/
theorem C9_replacement_map_scope_w :
    ((∀ k v, (k, v) ∈ (⟨[], some "pending"⟩ : PlanState).rewrittenMap →
       ∃ c ∈ [wDescTree], extractOriginalHash c.content = some k ∧ k ≠ "") ∧
     (∀ content k, extractOriginalHash content = some k →
        ∃ rest, splitOnColon content = "commit" :: rest ∨
                splitOnColon content = "diff" :: rest) ∧
     (∀ i c, [wDescTree].get? i = some c → ∀ p ∈ c.parents,
        strStartsWith p "rewritten:" = true →
        strDrop p "rewritten:".length ∈
          truthyOriginalsBefore [wDescTree] i) ∧
     (∀ k i, k ∈ truthyOriginalsBefore [wDescTree] i ↔
        ∃ c ∈ [wDescTree].take i,
          extractOriginalHash c.content = some k ∧ k ≠ "")) :=
  C9_replacement_map_scope wOracles [wDescTree] [wPlanTree]
    ⟨[], some "pending"⟩ (by decide)

/-! ## Schema characterization -/

theorem parseListY_isSome {α : Type} (f : Yaml → Option α) (l : List Yaml) :
    (∃ rs, parseListY f l = some rs) ↔ ∀ y ∈ l, ∃ r, f y = some r := by
  induction l with
  | nil => simp [parseListY]
  | cons y rest ih =>
    constructor
    · rintro ⟨rs, hrs⟩
      unfold parseListY at hrs
      split at hrs
      · exact Option.noConfusion hrs
      rename_i c hc
      split at hrs
      · exact Option.noConfusion hrs
      rename_i cs hcs
      intro q hq
      rcases List.mem_cons.mp hq with hq | hq
      · subst hq
        exact ⟨c, hc⟩
      · exact ih.mp ⟨cs, hcs⟩ q hq
    · intro hall
      rcases hall y (List.mem_cons_self y rest) with ⟨c, hc⟩
      rcases ih.mpr (fun q hq => hall q (List.mem_cons_of_mem y hq))
        with ⟨cs, hcs⟩
      refine ⟨c :: cs, ?_⟩
      unfold parseListY
      rw [hc, hcs]

theorem parseParentY_isSome (q : Yaml) :
    (∃ r, parseParentY q = some r) ↔
      ∃ s, q = .str s ∧ matchesParentRef s = true := by
  cases q with
  | str s =>
    unfold parseParentY
    dsimp only
    by_cases hm : matchesParentRef s = true
    · rw [if_pos hm]
      exact ⟨fun _ => ⟨s, rfl, hm⟩, fun _ => ⟨s, rfl⟩⟩
    · rw [if_neg hm]
      constructor
      · rintro ⟨r, hr⟩
        exact Option.noConfusion hr
      · rintro ⟨s', hs', hm'⟩
        injection hs' with hs'
        subst hs'
        exact absurd hm' hm
  | list l =>
    constructor
    · rintro ⟨r, hr⟩
      exact Option.noConfusion hr
    · rintro ⟨s, hs, _⟩
      exact Yaml.noConfusion hs
  | map kvs =>
    constructor
    · rintro ⟨r, hr⟩
      exact Option.noConfusion hr
    · rintro ⟨s, hs, _⟩
      exact Yaml.noConfusion hs
  | other =>
    constructor
    · rintro ⟨r, hr⟩
      exact Option.noConfusion hr
    · rintro ⟨s, hs, _⟩
      exact Yaml.noConfusion hs

theorem parseIdentityY_isSome (y : Yaml) :
    (∃ idn, parseIdentityY y = some idn) ↔
      ∃ kvs d s, y = .map kvs ∧
        yamlLookup kvs "date" = some (.str d) ∧
        yamlLookup kvs "identity" = some (.str s) ∧
        matchesIdentity s = true := by
  cases y with
  | map kvs =>
    constructor
    · rintro ⟨idn, hidn⟩
      unfold parseIdentityY at hidn
      dsimp only at hidn
      split at hidn
      case _ d hd =>
        split at hidn
        case _ s hs =>
          split at hidn
          case isTrue hm =>
            exact ⟨kvs, d, s, rfl, hd, hs, hm⟩
          case isFalse hm =>
            exact Option.noConfusion hidn
        case _ =>
          exact Option.noConfusion hidn
      case _ =>
        exact Option.noConfusion hidn
    · rintro ⟨kvs', d, s, hy, hd, hs, hm⟩
      injection hy with hy
      subst hy
      refine ⟨⟨d, s⟩, ?_⟩
      unfold parseIdentityY
      dsimp only
      rw [hd]
      dsimp only
      rw [hs]
      dsimp only
      rw [if_pos hm]
  | str s =>
    constructor
    · rintro ⟨idn, hidn⟩
      exact Option.noConfusion hidn
    · rintro ⟨kvs, d, s', hy, _⟩
      exact Yaml.noConfusion hy
  | list l =>
    constructor
    · rintro ⟨idn, hidn⟩
      exact Option.noConfusion hidn
    · rintro ⟨kvs, d, s', hy, _⟩
      exact Yaml.noConfusion hy
  | other =>
    constructor
    · rintro ⟨idn, hidn⟩
      exact Option.noConfusion hidn
    · rintro ⟨kvs, d, s', hy, _⟩
      exact Yaml.noConfusion hy

theorem parseIdentityY_field (kvs : List (String × Yaml)) (key : String) :
    (∃ idn, parseIdentityY ((yamlLookup kvs key).getD .other) = some idn) ↔
      ∃ akvs d s, yamlLookup kvs key = some (.map akvs) ∧
        yamlLookup akvs "date" = some (.str d) ∧
        yamlLookup akvs "identity" = some (.str s) ∧
        matchesIdentity s = true := by
  rcases hlook : yamlLookup kvs key with _ | v
  · constructor
    · rintro ⟨idn, hidn⟩
      exact Option.noConfusion hidn
    · rintro ⟨akvs, d, s, hl, _⟩
      exact Option.noConfusion hl
  · rw [Option.getD_some, parseIdentityY_isSome]
    constructor
    · rintro ⟨kvs', d, s, hv, h1, h2, h3⟩
      subst hv
      exact ⟨kvs', d, s, rfl, h1, h2, h3⟩
    · rintro ⟨akvs, d, s, hl, h1, h2, h3⟩
      injection hl with hl
      exact ⟨akvs, d, s, hl, h1, h2, h3⟩

theorem parseCommitY_isSome (y : Yaml) :
    (∃ c, parseCommitY y = some c) ↔
      ∃ ekvs, y = .map ekvs ∧
        (∃ akvs d s, yamlLookup ekvs "author" = some (.map akvs) ∧
           yamlLookup akvs "date" = some (.str d) ∧
           yamlLookup akvs "identity" = some (.str s) ∧
           matchesIdentity s = true) ∧
        (∃ ckvs d s, yamlLookup ekvs "committer" = some (.map ckvs) ∧
           yamlLookup ckvs "date" = some (.str d) ∧
           yamlLookup ckvs "identity" = some (.str s) ∧
           matchesIdentity s = true) ∧
        (∃ s, yamlLookup ekvs "content" = some (.str s) ∧
           matchesContent s = true) ∧
        (∃ s, yamlLookup ekvs "message" = some (.str s)) ∧
        (∃ ps, yamlLookup ekvs "parents" = some (.list ps) ∧
           ∀ q ∈ ps, ∃ s, q = .str s ∧ matchesParentRef s = true) := by
  cases y with
  | map ekvs =>
    constructor
    · rintro ⟨c, hc⟩
      unfold parseCommitY at hc
      dsimp only at hc
      split at hc
      · exact Option.noConfusion hc
      rename_i author hauthor
      split at hc
      · exact Option.noConfusion hc
      rename_i committer hcommitter
      split at hc
      case _ content hcontent =>
        split at hc
        case isTrue hmc =>
          split at hc
          case _ message hmessage =>
            split at hc
            case _ items hpar =>
              split at hc
              case _ parents hplist =>
                refine ⟨ekvs, rfl,
                        (parseIdentityY_field ekvs "author").mp ⟨author, hauthor⟩,
                        (parseIdentityY_field ekvs "committer").mp
                          ⟨committer, hcommitter⟩,
                        ⟨content, hcontent, hmc⟩, ⟨message, hmessage⟩,
                        ⟨items, hpar, ?_⟩⟩
                intro q hq
                rcases (parseListY_isSome parseParentY items).mp
                    ⟨parents, hplist⟩ q hq with ⟨r, hr⟩
                exact (parseParentY_isSome q).mp ⟨r, hr⟩
              case _ =>
                exact Option.noConfusion hc
            case _ =>
              exact Option.noConfusion hc
          case _ =>
            exact Option.noConfusion hc
        case isFalse hmc =>
          exact Option.noConfusion hc
      case _ =>
        exact Option.noConfusion hc
    · rintro ⟨ekvs', hy, hauth, hcomm, ⟨content, hcontent, hmc⟩,
              ⟨message, hmessage⟩, ⟨items, hpar, hall⟩⟩
      injection hy with hy
      subst hy
      rcases (parseIdentityY_field ekvs "author").mpr hauth
        with ⟨author, hauthor⟩
      rcases (parseIdentityY_field ekvs "committer").mpr hcomm
        with ⟨committer, hcommitter⟩
      have hpl : ∃ ps', parseListY parseParentY items = some ps' := by
        rw [parseListY_isSome]
        intro q hq
        rcases hall q hq with ⟨s, hqs, hms⟩
        exact (parseParentY_isSome q).mpr ⟨s, hqs, hms⟩
      rcases hpl with ⟨ps', hps'⟩
      refine ⟨⟨author, committer, content, message, ps'⟩, ?_⟩
      unfold parseCommitY
      dsimp only
      rw [hauthor]
      dsimp only
      rw [hcommitter]
      dsimp only
      rw [hcontent]
      dsimp only
      rw [if_pos hmc, hmessage]
      dsimp only
      rw [hpar]
      dsimp only
      rw [hps']
  | str s =>
    constructor
    · rintro ⟨c, hc⟩
      exact Option.noConfusion hc
    · rintro ⟨ekvs, hy, _⟩
      exact Yaml.noConfusion hy
  | list l =>
    constructor
    · rintro ⟨c, hc⟩
      exact Option.noConfusion hc
    · rintro ⟨ekvs, hy, _⟩
      exact Yaml.noConfusion hy
  | other =>
    constructor
    · rintro ⟨c, hc⟩
      exact Option.noConfusion hc
    · rintro ⟨ekvs, hy, _⟩
      exact Yaml.noConfusion hy

/-- The plan-file acceptance condition as the claim words it: a mapping whose
`commits` key holds a list in which every entry is a mapping with
pattern-valid author/committer identities, a pattern-valid content string,
parents that are each `previous`, `rewritten:<hex>` or a bare hex hash, and a
string message. -/
def schemaAccepts (doc : Yaml) : Prop :=
  ∃ kvs items, doc = .map kvs ∧
    yamlLookup kvs "commits" = some (.list items) ∧
    ∀ y ∈ items,
      ∃ ekvs, y = .map ekvs ∧
        (∃ akvs d s, yamlLookup ekvs "author" = some (.map akvs) ∧
           yamlLookup akvs "date" = some (.str d) ∧
           yamlLookup akvs "identity" = some (.str s) ∧
           matchesIdentity s = true) ∧
        (∃ ckvs d s, yamlLookup ekvs "committer" = some (.map ckvs) ∧
           yamlLookup ckvs "date" = some (.str d) ∧
           yamlLookup ckvs "identity" = some (.str s) ∧
           matchesIdentity s = true) ∧
        (∃ s, yamlLookup ekvs "content" = some (.str s) ∧
           matchesContent s = true) ∧
        (∃ s, yamlLookup ekvs "message" = some (.str s)) ∧
        (∃ ps, yamlLookup ekvs "parents" = some (.list ps) ∧
           ∀ q ∈ ps, ∃ s, q = .str s ∧ matchesParentRef s = true)

/-- C6: the schema validator accepts exactly the documents satisfying the
declarative condition `schemaAccepts`, and on a rejected document
`createPlanFromYaml` returns the validation error for every oracle — no
planning work can depend on the oracles, so no further processing of the
plan occurs. -/
theorem C6_schema_acceptance :
    ∀ doc : Yaml,
      ((∃ cs, rebaseSchemaParse doc = some cs) ↔ schemaAccepts doc) ∧
      (rebaseSchemaParse doc = none →
        ∀ g, createPlanFromYaml g doc = .error .validation) := by
  intro doc
  constructor
  · unfold schemaAccepts
    cases doc with
    | map kvs =>
      constructor
      · rintro ⟨cs, hcs⟩
        unfold rebaseSchemaParse at hcs
        dsimp only at hcs
        split at hcs
        case _ items hitems =>
          refine ⟨kvs, items, rfl, hitems, ?_⟩
          intro y hy
          rcases (parseListY_isSome parseCommitY items).mp ⟨cs, hcs⟩ y hy
            with ⟨c, hc⟩
          exact (parseCommitY_isSome y).mp ⟨c, hc⟩
        case _ =>
          exact Option.noConfusion hcs
      · rintro ⟨kvs', items, hdoc, hitems, hall⟩
        injection hdoc with hdoc
        subst hdoc
        have hex : ∃ cs, parseListY parseCommitY items = some cs := by
          rw [parseListY_isSome]
          intro y hy
          exact (parseCommitY_isSome y).mpr (hall y hy)
        rcases hex with ⟨cs, hcs⟩
        refine ⟨cs, ?_⟩
        unfold rebaseSchemaParse
        dsimp only
        rw [hitems]
        dsimp only
        exact hcs
    | str s =>
      constructor
      · rintro ⟨cs, hcs⟩
        exact Option.noConfusion hcs
      · rintro ⟨kvs, items, hdoc, _⟩
        exact Yaml.noConfusion hdoc
    | list l =>
      constructor
      · rintro ⟨cs, hcs⟩
        exact Option.noConfusion hcs
      · rintro ⟨kvs, items, hdoc, _⟩
        exact Yaml.noConfusion hdoc
    | other =>
      constructor
      · rintro ⟨cs, hcs⟩
        exact Option.noConfusion hcs
      · rintro ⟨kvs, items, hdoc, _⟩
        exact Yaml.noConfusion hdoc
  · intro hnone g
    unfold createPlanFromYaml
    rw [hnone]

/-! ## History-Extractor characterization -/

theorem get?_nodup_inj (l : List String) (hnd : l.Nodup) (i j : Nat)
    (a : String) (hi : l.get? i = some a) (hj : l.get? j = some a) : i = j := by
  rcases List.get?_eq_some.mp hi with ⟨hi', hgi⟩
  rcases List.get?_eq_some.mp hj with ⟨hj', hgj⟩
  have := List.nodup_iff_injective_get.mp hnd
    (show l.get ⟨i, hi'⟩ = l.get ⟨j, hj'⟩ by rw [hgi, hgj])
  exact congrArg Fin.val this

theorem mem_get?_exists (l : List String) (a : String) (h : a ∈ l) :
    ∃ i, l.get? i = some a := by
  rcases List.mem_iff_get.mp h with ⟨i, hi⟩
  exact ⟨i, by rw [List.get?_eq_get i.isLt, hi]⟩

theorem foldl_mapSet_fresh (l : List (Nat × String)) :
    ∀ (init : List (String × Nat)),
      (∀ q ∈ l, ∀ r ∈ init, r.1 ≠ q.2) →
      (l.map (fun q => q.2)).Nodup →
      l.foldl (fun m q => mapSet m q.2 q.1) init =
        init ++ l.map (fun q => (q.2, q.1)) := by
  induction l with
  | nil =>
    intro init _ _
    simp
  | cons q rest ih =>
    intro init hdisj hnodup
    simp only [List.foldl_cons]
    have hfresh : mapSet init q.2 q.1 = init ++ [(q.2, q.1)] :=
      mapSet_fresh init q.2 q.1
        (fun r hr => hdisj q (List.mem_cons_self q rest) r hr)
    rw [hfresh]
    have hnd' : (rest.map (fun q => q.2)).Nodup := by
      simp only [List.map_cons, List.nodup_cons] at hnodup
      exact hnodup.2
    rw [ih (init ++ [(q.2, q.1)]) ?_ hnd']
    · simp
    · intro q' hq' r hr
      rcases List.mem_append.mp hr with hr | hr
      · exact hdisj q' (List.mem_cons_of_mem q hq') r hr
      · have hrq : r = (q.2, q.1) := List.mem_singleton.mp hr
        subst hrq
        simp only [List.map_cons, List.nodup_cons] at hnodup
        intro he
        exact hnodup.1 (List.mem_map.mpr ⟨q', hq', he.symm⟩)

theorem buildIndexMap_eq (hashes : List String) (hnd : hashes.Nodup) :
    buildIndexMap hashes = hashes.enum.map (fun q => (q.2, q.1)) := by
  unfold buildIndexMap
  rw [foldl_mapSet_fresh hashes.enum [] (by simp)
      (by rw [List.enum_map_snd]; exact hnd)]
  simp

theorem mapGet_enumFrom_none (hashes : List String) :
    ∀ (n : Nat) (p : String), p ∉ hashes →
      mapGet ((List.enumFrom n hashes).map (fun q => (q.2, q.1))) p = none := by
  induction hashes with
  | nil =>
    intro n p _
    rfl
  | cons h t ih =>
    intro n p hp
    rw [List.enumFrom_cons]
    simp only [List.map_cons]
    rw [mapGet_cons]
    rw [if_neg (fun he : h = p => hp (he ▸ List.mem_cons_self h t))]
    exact ih (n + 1) p (fun hm => hp (List.mem_cons_of_mem h hm))

theorem mapGet_enumFrom_some (hashes : List String) :
    ∀ (n : Nat), hashes.Nodup → ∀ (p : String) (i : Nat),
      (mapGet ((List.enumFrom n hashes).map (fun q => (q.2, q.1))) p = some i ↔
        ∃ j, i = n + j ∧ hashes.get? j = some p) := by
  induction hashes with
  | nil =>
    intro n _ p i
    constructor
    · intro h
      exact Option.noConfusion h
    · rintro ⟨j, _, hj⟩
      exact Option.noConfusion hj
  | cons h t ih =>
    intro n hnd p i
    rw [List.enumFrom_cons]
    simp only [List.map_cons]
    rw [mapGet_cons]
    by_cases hp : h = p
    · rw [if_pos hp]
      subst hp
      constructor
      · intro he
        injection he with he
        exact ⟨0, by omega, rfl⟩
      · rintro ⟨j, hij, hj⟩
        rcases j with _ | j
        · rw [List.get?_cons_zero] at hj
          have : i = n := by omega
          rw [this]
        · rw [List.get?_cons_succ] at hj
          have hmem : h ∈ t := List.get?_mem hj
          exact absurd hmem (List.nodup_cons.mp hnd).1
    · rw [if_neg hp]
      rw [ih (n + 1) (List.nodup_cons.mp hnd).2 p i]
      constructor
      · rintro ⟨j, hij, hj⟩
        exact ⟨j + 1, by omega, by rw [List.get?_cons_succ]; exact hj⟩
      · rintro ⟨j, hij, hj⟩
        rcases j with _ | j
        · rw [List.get?_cons_zero] at hj
          injection hj with hj
          exact absurd hj hp
        · rw [List.get?_cons_succ] at hj
          exact ⟨j, by omega, hj⟩

theorem mapGet_buildIndexMap (hashes : List String) (hnd : hashes.Nodup)
    (p : String) (i : Nat) :
    mapGet (buildIndexMap hashes) p = some i ↔ hashes.get? i = some p := by
  rw [buildIndexMap_eq hashes hnd,
      show hashes.enum = List.enumFrom 0 hashes from rfl,
      mapGet_enumFrom_some hashes 0 hnd p i]
  constructor
  · rintro ⟨j, hij, hj⟩
    rwa [show i = j by omega]
  · intro h
    exact ⟨i, by omega, h⟩

theorem mapGet_buildIndexMap_none (hashes : List String) (hnd : hashes.Nodup)
    (p : String) (hp : p ∉ hashes) :
    mapGet (buildIndexMap hashes) p = none := by
  rw [buildIndexMap_eq hashes hnd]
  exact mapGet_enumFrom_none hashes 0 p hp

/-- The per-position symbolic parent rule of the History Extractor, stated
declaratively: position 0 whose parent sits immediately before the commit
maps to `previous`; any other in-range parent maps to a `rewritten:` short
hash; an out-of-range parent maps to its bare short hash. -/
def refFor (hashes : List String) (i j : Nat) (p : String) : String :=
  if j = 0 ∧ 1 ≤ i ∧ hashes.get? (i - 1) = some p then "previous"
  else if p ∈ hashes then "rewritten:" ++ strTake p 7
  else strTake p 7

theorem refFor_eq_code (hashes : List String) (hnd : hashes.Nodup)
    (i j : Nat) (p : String) :
    (match mapGet (buildIndexMap hashes) p with
     | some pi => if j = 0 ∧ pi + 1 = i then "previous"
                  else "rewritten:" ++ strTake p 7
     | none => strTake p 7) = refFor hashes i j p := by
  rcases hget : mapGet (buildIndexMap hashes) p with _ | pi
  · unfold refFor
    have hpm : p ∉ hashes := by
      intro hm
      rcases mem_get?_exists hashes p hm with ⟨k, hk⟩
      rw [(mapGet_buildIndexMap hashes hnd p k).mpr hk] at hget
      exact Option.noConfusion hget
    rw [if_neg (fun hc => hpm (List.get?_mem hc.2.2)), if_neg hpm]
  · have hpi := (mapGet_buildIndexMap hashes hnd p pi).mp hget
    unfold refFor
    dsimp only
    by_cases hc : j = 0 ∧ pi + 1 = i
    · rw [if_pos hc,
          if_pos ⟨hc.1, by omega, by rw [show i - 1 = pi by omega]; exact hpi⟩]
    · rw [if_neg hc, if_neg ?_, if_pos (List.get?_mem hpi)]
      rintro ⟨h0, h1, hg⟩
      have := get?_nodup_inj hashes hnd pi (i - 1) p hpi hg
      exact hc ⟨h0, by omega⟩

theorem refFor_eq_code0 (hashes : List String) (hnd : hashes.Nodup)
    (i : Nat) (p : String) :
    (match mapGet (buildIndexMap hashes) p with
     | some pi => if pi + 1 = i then "previous"
                  else "rewritten:" ++ strTake p 7
     | none => strTake p 7) = refFor hashes i 0 p := by
  rw [← refFor_eq_code hashes hnd i 0 p]
  rcases hget : mapGet (buildIndexMap hashes) p with _ | pi
  · rfl
  · dsimp only
    by_cases hc : pi + 1 = i
    · rw [if_pos hc, if_pos ⟨rfl, hc⟩]
    · rw [if_neg hc, if_neg (fun hc2 => hc hc2.2)]

theorem parentRefsFor_eq (hashes : List String) (hnd : hashes.Nodup)
    (i : Nat) (parents : List String) :
    parentRefsFor (buildIndexMap hashes) i parents =
      parents.enum.map (fun q => refFor hashes i q.1 q.2) := by
  rcases parents with _ | ⟨p, rest⟩
  · rfl
  rcases rest with _ | ⟨p₂, rest2⟩
  · unfold parentRefsFor
    dsimp only
    rw [show ([p] : List String).enum = [(0, p)] from rfl]
    simp only [List.map_cons, List.map_nil]
    rw [← refFor_eq_code0 hashes hnd i p]
    rcases hget : mapGet (buildIndexMap hashes) p with _ | pi
    · rfl
    · dsimp only
      by_cases hc : pi + 1 = i
      · rw [if_pos hc, if_pos hc]
      · rw [if_neg hc, if_neg hc]
  · unfold parentRefsFor
    dsimp only
    refine List.map_congr_left ?_
    intro q hq
    exact refFor_eq_code hashes hnd i q.1 q.2

theorem convertEach_ok (gci : String → Option CommitInfo)
    (idx : List (String × Nat)) (l : List (Nat × String)) :
    ∀ ds, convertEach gci idx l = .ok ds →
      ds.length = l.length ∧
      ∀ j q, l.get? j = some q →
        ∃ info, gci q.2 = some info ∧
          ds.get? j = some (descriptorFor idx q info) := by
  induction l with
  | nil =>
    intro ds h
    simp only [convertEach] at h
    cases h
    refine ⟨rfl, ?_⟩
    intro j q hq
    simp at hq
  | cons q rest ih =>
    intro ds h
    simp only [convertEach] at h
    split at h
    · exact Except.noConfusion h
    rename_i info hinfo
    split at h
    · exact Except.noConfusion h
    rename_i ds' hds
    cases h
    rcases ih ds' hds with ⟨hlen, hall⟩
    refine ⟨by simp [hlen], ?_⟩
    intro j q' hq'
    rcases j with _ | j
    · rw [List.get?_cons_zero] at hq'
      injection hq' with hq'
      subst hq'
      exact ⟨info, hinfo, by rw [List.get?_cons_zero]⟩
    · rw [List.get?_cons_succ] at hq'
      rw [List.get?_cons_succ]
      exact hall j q' hq'

/-- C4: for every commit emitted by the History Extractor, zero parents
yield an empty parent list; a parent that sits immediately before the
commit in the emitted sequence and is referenced from position 0 yields
"previous"; any other parent inside the emitted set yields
"rewritten:" followed by the 7-character short hash; a parent outside the
emitted range yields the bare 7-character short hash; and the descriptor's
parent list has exactly one entry per declared parent, in declared order,
with only position 0 eligible for "previous". -/
theorem C4_extractor_parent_rules (gci : String → Option CommitInfo)
    (hashes : List String) (ds : List RescribeCommit)
    (hnd : hashes.Nodup) (hok : convertGitGraph gci hashes = .ok ds) :
    ds.length = hashes.length ∧
    ∀ i h info d, hashes.get? i = some h → gci h = some info →
      ds.get? i = some d →
      d.parents.length = info.parents.length ∧
      (info.parents = [] → d.parents = []) ∧
      ∀ j p, info.parents.get? j = some p →
        d.parents.get? j = some
          (if j = 0 ∧ 1 ≤ i ∧ hashes.get? (i - 1) = some p then "previous"
           else if p ∈ hashes then "rewritten:" ++ strTake p 7
           else strTake p 7) := by
  unfold convertGitGraph at hok
  rcases convertEach_ok gci (buildIndexMap hashes) hashes.enum ds hok with
    ⟨hlen, hall⟩
  refine ⟨by rw [hlen, List.enum_length], ?_⟩
  intro i h info d hih hgci hid
  have henum : hashes.enum.get? i = some (i, h) := by
    rw [List.get?_enum, hih]
    rfl
  rcases hall i (i, h) henum with ⟨info', hinfo', hds'⟩
  rw [hgci] at hinfo'
  injection hinfo' with hinfo'
  subst hinfo'
  rw [hid] at hds'
  injection hds' with hds'
  subst hds'
  have hpar : (descriptorFor (buildIndexMap hashes) (i, h) info).parents =
      info.parents.enum.map (fun q => refFor hashes i q.1 q.2) :=
    parentRefsFor_eq hashes hnd i info.parents
  refine ⟨?_, ?_, ?_⟩
  · rw [hpar, List.length_map, List.enum_length]
  · intro hnil
    rw [hpar, hnil]
    rfl
  · intro j p hjp
    have hje : info.parents.enum.get? j = some (j, p) := by
      rw [List.get?_enum, hjp]
      rfl
    rw [hpar, List.get?_map, hje]
    rfl

/-- Live metadata of the sample root commit used to witness C4. -/
def wInfoA : CommitInfo :=
  ⟨"Ann", "ann@x", "D1", "Cal", "cal@x", "D2", "t1", [], "m1"⟩

/-- Live metadata of the sample child commit used to witness C4. -/
def wInfoB : CommitInfo :=
  ⟨"Bob", "bob@x", "D3", "Cal", "cal@x", "D4", "t2", ["aaaaaaaa"], "m2"⟩

/-- Oracle for the two-commit repository used to witness C4. -/
def wGciC4 : String → Option CommitInfo := fun h =>
  if h = "aaaaaaaa" then some wInfoA
  else if h = "bbbbbbbb" then some wInfoB
  else none

/-- The rev-list output of the two-commit repository used to witness C4. -/
def wHashesC4 : List String := ["aaaaaaaa", "bbbbbbbb"]

/-- The descriptors the extractor emits on the two-commit repository. -/
def wDsC4 : List RescribeCommit :=
  [⟨⟨"D1", "Ann <ann@x>"⟩, ⟨"D2", "Cal <cal@x>"⟩, "commit:aaaaaaa", "m1", []⟩,
   ⟨⟨"D3", "Bob <bob@x>"⟩, ⟨"D4", "Cal <cal@x>"⟩, "commit:bbbbbbb", "m2",
    ["previous"]⟩]

/-- Witness for C4 on a concrete two-commit repository: the hypotheses hold
and the per-position parent rule follows. -/
theorem C4_extractor_parent_rules_w :
    (wHashesC4.Nodup ∧ convertGitGraph wGciC4 wHashesC4 = .ok wDsC4) ∧
    (wDsC4.length = wHashesC4.length ∧
     ∀ i h info d, wHashesC4.get? i = some h → wGciC4 h = some info →
       wDsC4.get? i = some d →
       d.parents.length = info.parents.length ∧
       (info.parents = [] → d.parents = []) ∧
       ∀ j p, info.parents.get? j = some p →
         d.parents.get? j = some
           (if j = 0 ∧ 1 ≤ i ∧ wHashesC4.get? (i - 1) = some p then "previous"
            else if p ∈ wHashesC4 then "rewritten:" ++ strTake p 7
            else strTake p 7)) :=
  ⟨⟨by decide, by decide⟩,
   C4_extractor_parent_rules wGciC4 wHashesC4 wDsC4 (by decide) (by decide)⟩

/-! ## Idempotence of a freshly extracted plan (C2) -/

theorem string_eq_of_data (s t : String) (h : s.data = t.data) : s = t := by
  cases s
  cases t
  exact congrArg String.mk h

theorem strTake_ne_empty (s : String) (hs : s ≠ "") : strTake s 7 ≠ "" := by
  intro h
  apply hs
  have hd : s.data.take 7 = [] := congrArg String.data h
  rcases List.take_eq_nil_iff.mp hd with h7 | hnil
  · exact absurd h7 (by decide)
  · exact string_eq_of_data s "" hnil

theorem strTake_length_le (s : String) : (strTake s 7).length ≤ 7 := by
  show (s.data.take 7).length ≤ 7
  rw [List.length_take]
  omega

theorem strTake_ne_previous (s : String) : strTake s 7 ≠ "previous" := by
  intro h
  have h1 := strTake_length_le s
  rw [h] at h1
  exact absurd h1 (by decide)

theorem strTake_not_rewritten (s : String) :
    strStartsWith (strTake s 7) "rewritten:" = false := by
  rw [Bool.eq_false_iff]
  intro htrue
  have hpre := List.isPrefixOf_iff_prefix.mp htrue
  have hlen := hpre.length_le
  have h10 : ("rewritten:" : String).data.length = 10 := rfl
  have h7 : (strTake s 7).data.length ≤ 7 := strTake_length_le s
  omega

theorem rewritten_ne_previous (s : String) : "rewritten:" ++ s ≠ "previous" := by
  intro h
  have hl := congrArg String.length h
  rw [String.length_append] at hl
  have h1 : ("rewritten:" : String).length = 10 := rfl
  have h2 : ("previous" : String).length = 8 := rfl
  omega

theorem strStartsWith_rewritten_append (s : String) :
    strStartsWith ("rewritten:" ++ s) "rewritten:" = true := by
  apply List.isPrefixOf_iff_prefix.mpr
  show ("rewritten:" : String).data <+: ("rewritten:" ++ s).data
  rw [String.data_append]
  exact List.prefix_append _ _

theorem strDrop_rewritten (s : String) :
    strDrop ("rewritten:" ++ s) ("rewritten:".length) = s := by
  apply string_eq_of_data
  show ("rewritten:" ++ s).data.drop ("rewritten:".length) = s.data
  rw [String.data_append]
  exact List.drop_left _ _

theorem strStartsWith_strTake (s : String) (n : Nat) :
    strStartsWith s (strTake s n) = true :=
  List.isPrefixOf_iff_prefix.mpr (List.take_prefix n s.data)

/-- The replacement map `createPlan` accumulates when every entry is reused:
each original short hash maps to itself. -/
def shortId (l : List String) : List (String × String) :=
  l.map (fun h => (strTake h 7, strTake h 7))

/-- The `previousCommit` cursor after the first `k` entries of an all-reuse
plan over `hashes`. -/
def cursorAt (hashes : List String) (k : Nat) : Option String :=
  ((hashes.take k).getLast?).map (fun h => strTake h 7)

theorem shortId_append (l₁ l₂ : List String) :
    shortId (l₁ ++ l₂) = shortId l₁ ++ shortId l₂ := by
  unfold shortId
  rw [List.map_append]

theorem mapGet_shortId_mem (l : List String) (x : String) (hx : x ∈ l) :
    mapGet (shortId l) (strTake x 7) = some (strTake x 7) := by
  induction l with
  | nil => exact absurd hx (List.not_mem_nil x)
  | cons h t ih =>
    show mapGet ((strTake h 7, strTake h 7) :: shortId t) (strTake x 7) = _
    rw [mapGet_cons]
    by_cases he : strTake h 7 = strTake x 7
    · rw [if_pos he, he]
    · rw [if_neg he]
      rcases List.mem_cons.mp hx with hx | hx
      · exact absurd (congrArg (fun s => strTake s 7) hx.symm) he
      · exact ih hx

theorem cursorAt_zero (hashes : List String) : cursorAt hashes 0 = none := rfl

theorem cursorAt_succ (hashes : List String) (k : Nat) (h : String)
    (hk : hashes.get? k = some h) :
    cursorAt hashes (k + 1) = some (strTake h 7) := by
  unfold cursorAt
  rw [List.get?_eq_getElem?] at hk
  rw [List.take_succ, hk]
  show ((hashes.take k ++ [h]).getLast?).map _ = _
  rw [List.getLast?_concat]
  rfl

theorem take_succ_concat (hashes : List String) (k : Nat) (h : String)
    (hk : hashes.get? k = some h) :
    hashes.take (k + 1) = hashes.take k ++ [h] := by
  rw [List.get?_eq_getElem?] at hk
  rw [List.take_succ, hk]
  rfl

theorem resolveParents_map_ok {α : Type} (f g : α → String)
    (prev : Option String) (m : List (String × String)) (l : List α)
    (hall : ∀ a ∈ l, resolveOneParent prev m (f a) = .ok (g a)) :
    resolveParents (l.map f) prev m = .ok (l.map g) := by
  induction l with
  | nil => rfl
  | cons a rest ih =>
    show resolveParents (f a :: rest.map f) prev m = _
    unfold resolveParents
    rw [hall a (List.mem_cons_self a rest),
        ih (fun b hb => hall b (List.mem_cons_of_mem a hb))]
    rfl

theorem shortTake_not_mem_take (hashes : List String) (k : Nat) (h : String)
    (hndS : (hashes.map (fun x => strTake x 7)).Nodup)
    (hk : hashes.get? k = some h) :
    strTake h 7 ∉ (hashes.take k).map (fun x => strTake x 7) := by
  have hsubl : List.Sublist ((hashes.take (k + 1)).map (fun x => strTake x 7))
      (hashes.map (fun x => strTake x 7)) :=
    (List.take_sublist (k + 1) hashes).map _
  have hsub : ((hashes.take (k + 1)).map (fun x => strTake x 7)).Nodup :=
    hndS.sublist hsubl
  rw [take_succ_concat hashes k h hk, List.map_append] at hsub
  have hpw := List.pairwise_append.mp hsub
  intro hmem
  exact hpw.2.2 _ hmem (strTake h 7) (by simp) rfl

theorem shortId_state_step (hashes : List String) (k : Nat) (h : String)
    (hndS : (hashes.map (fun x => strTake x 7)).Nodup)
    (hk : hashes.get? k = some h) :
    mapSet (shortId (hashes.take k)) (strTake h 7) (strTake h 7) =
      shortId (hashes.take (k + 1)) := by
  rw [mapSet_fresh _ _ _ ?fresh, take_succ_concat hashes k h hk, shortId_append]
  · rfl
  case fresh =>
    intro r hr
    rcases List.mem_map.mp hr with ⟨x, hx, hrx⟩
    intro he
    rw [← hrx] at he
    exact shortTake_not_mem_take hashes k h hndS hk
      (List.mem_map.mpr ⟨x, hx, he⟩)

theorem planOne_fresh (gci : String → Option CommitInfo)
    (gth : String → Option String) (hashes : List String) (k : Nat)
    (h : String) (info : CommitInfo)
    (hndS : (hashes.map (fun x => strTake x 7)).Nodup)
    (hne : ∀ x ∈ hashes, x ≠ "")
    (hnc : ∀ x ∈ hashes, ':' ∉ x.data)
    (hk : hashes.get? k = some h)
    (hshort : gci (strTake h 7) = some info)
    (htree : gth (strTake h 7) = some info.tree)
    (htopo : ∀ p ∈ info.parents, ∀ pi, hashes.get? pi = some p → pi < k) :
    planOne ⟨gci, gth⟩ ⟨shortId (hashes.take k), cursorAt hashes k⟩
        (descriptorFor (buildIndexMap hashes) (k, h) info) =
      .ok ({ commit := descriptorFor (buildIndexMap hashes) (k, h) info,
             originalHash := some (strTake h 7), action := .reuse,
             changes := [], tree := info.tree,
             parents := info.parents.map (fun p => strTake p 7) },
           ⟨shortId (hashes.take (k + 1)), some (strTake h 7)⟩) := by
  have hnd : hashes.Nodup := List.Nodup.of_map _ hndS
  have hmem : h ∈ hashes := List.get?_mem hk
  have hnc7 : ':' ∉ (strTake h 7).data :=
    fun hm => hnc h hmem ((List.take_prefix 7 h.data).subset hm)
  have hlit : ("commit:" : String) = "commit" ++ ":" := by decide
  have hsplit : splitOnColon ("commit:" ++ strTake h 7) =
      ["commit", strTake h 7] := by
    rw [hlit]
    exact splitOnColon_tag "commit" (strTake h 7) (by decide) hnc7
  have hresolve : resolveContentStrategy gth ("commit:" ++ strTake h 7) =
      .ok info.tree := by
    unfold resolveContentStrategy
    rw [hsplit]
    dsimp only
    rw [if_neg (by decide), if_pos (Or.inl rfl)]
    dsimp only [List.head?, Option.getD]
    rw [htree]
  have hextract : extractOriginalHash ("commit:" ++ strTake h 7) =
      some (strTake h 7) := by
    unfold extractOriginalHash
    rw [hsplit]
    dsimp only
    rw [if_pos (Or.inl rfl)]
    rfl
  have helem : ∀ q ∈ info.parents.enum,
      resolveOneParent (cursorAt hashes k) (shortId (hashes.take k))
        (refFor hashes k q.1 q.2) = .ok (strTake q.2 7) := by
    intro q hq
    have hp : q.2 ∈ info.parents := by
      rw [← List.enum_map_snd info.parents]
      exact List.mem_map_of_mem Prod.snd hq
    unfold refFor
    by_cases hc1 : q.1 = 0 ∧ 1 ≤ k ∧ hashes.get? (k - 1) = some q.2
    · rw [if_pos hc1, resolveOneParent_previous]
      obtain ⟨-, hk1, hgp⟩ := hc1
      have hcur : cursorAt hashes k = some (strTake q.2 7) := by
        rw [show k = k - 1 + 1 by omega]
        exact cursorAt_succ hashes (k - 1) q.2 hgp
      rw [hcur]
      dsimp only
      rw [if_neg (strTake_ne_empty q.2 (hne q.2 (List.get?_mem hgp)))]
    · rw [if_neg hc1]
      by_cases hmem2 : q.2 ∈ hashes
      · rw [if_pos hmem2]
        have hget : mapGet (shortId (hashes.take k))
            (strDrop ("rewritten:" ++ strTake q.2 7) ("rewritten:".length)) =
            some (strTake q.2 7) := by
          rw [strDrop_rewritten]
          rcases mem_get?_exists hashes q.2 hmem2 with ⟨pi, hpi⟩
          have hpik : pi < k := htopo q.2 hp pi hpi
          have hpt : q.2 ∈ hashes.take k := by
            have hpt' : (hashes.take k).get? pi = some q.2 := by
              rw [List.get?_take hpik]
              exact hpi
            exact List.get?_mem hpt'
          exact mapGet_shortId_mem _ q.2 hpt
        rw [resolveOneParent_rw_found _ _ _ (strTake q.2 7)
            (rewritten_ne_previous _) (strStartsWith_rewritten_append _) hget,
          strDrop_rewritten,
          if_neg (strTake_ne_empty q.2 (hne q.2 hmem2))]
      · rw [if_neg hmem2]
        exact resolveOneParent_direct _ _ _ (strTake_ne_previous q.2)
          (by rw [strTake_not_rewritten]; exact Bool.false_ne_true)
  have hmapeq : info.parents.map (fun p => strTake p 7) =
      info.parents.enum.map (fun q => strTake q.2 7) := by
    rw [show info.parents.enum.map (fun q => strTake q.2 7) =
        (info.parents.enum.map Prod.snd).map (fun p => strTake p 7) by
      rw [List.map_map]
      rfl]
    rw [List.enum_map_snd]
  have hparents : resolveParents (parentRefsFor (buildIndexMap hashes) k
        info.parents) (cursorAt hashes k) (shortId (hashes.take k)) =
      .ok (info.parents.map (fun p => strTake p 7)) := by
    rw [parentRefsFor_eq hashes hnd k, hmapeq]
    exact resolveParents_map_ok _ _ _ _ _ helem
  have hchanges : computeChanges info
      (descriptorFor (buildIndexMap hashes) (k, h) info) info.tree
      (info.parents.map (fun p => strTake p 7)) = [] := by
    apply (computeChanges_eq_nil_iff _ _ _ _).mpr
    refine ⟨rfl, ⟨(List.length_map _ _).symm, ?_⟩, rfl, rfl, rfl, rfl, rfl⟩
    intro pr hpr
    have hzip : info.parents.zip (info.parents.map (fun p => strTake p 7)) =
        info.parents.map (fun p => (p, strTake p 7)) := by
      clear hpr
      induction info.parents with
      | nil => rfl
      | cons a t ih => simp only [List.map_cons, List.zip_cons_cons, ih]
    rw [hzip] at hpr
    rcases List.mem_map.mp hpr with ⟨a, ha, hra⟩
    rw [← hra]
    exact strStartsWith_strTake a 7
  have hohne : ¬ (strTake h 7 = "") := strTake_ne_empty h (hne h hmem)
  unfold planOne descriptorFor
  dsimp only
  rw [hresolve]
  dsimp only
  rw [hparents]
  dsimp only
  rw [hextract]
  dsimp only
  rw [if_neg hohne, hshort]
  dsimp only
  unfold descriptorFor at hchanges
  rw [hchanges]
  rw [if_pos (show ([] : List String).isEmpty = true from rfl)]
  rw [shortId_state_step hashes k h hndS hk]

theorem execLoop_all_reuse (cc : CreateArgs → Option String)
    (plan : List CommitPlan) :
    ∀ (fc : Option String) (rmap : List (String × String)),
      (∀ cp ∈ plan, cp.action = .reuse) →
      (execLoop cc plan fc rmap).trace = [] ∧
      (execLoop cc plan fc rmap).entries.map (fun e => e.newHash) =
        plan.map (fun cp => cp.originalHash.getD "") ∧
      ∃ r, (execLoop cc plan fc rmap).result = some r := by
  induction plan with
  | nil =>
    intro fc rmap _
    exact ⟨rfl, rfl, fc, rfl⟩
  | cons cp rest ih =>
    intro fc rmap hall
    have hact : cp.action = Action.reuse := hall cp (List.mem_cons_self cp rest)
    have hstep : execStep cc cp (resolvePending cp.parents fc) =
        some (cp.originalHash.getD "", []) := by
      unfold execStep
      rw [hact]
    simp only [execLoop, hstep]
    rcases ih (some (cp.originalHash.getD ""))
        (if isTruthy cp.originalHash then
          mapSet rmap (cp.originalHash.getD "") (cp.originalHash.getD "")
         else rmap)
        (fun c hc => hall c (List.mem_cons_of_mem cp hc)) with ⟨ht, hm, r, hr⟩
    refine ⟨?_, ?_, r, ?_⟩
    · rw [List.nil_append]
      exact ht
    · rw [List.map_cons, List.map_cons, hm]
    · exact hr

theorem planFold_fresh (gci : String → Option CommitInfo)
    (gth : String → Option String) (hashes : List String)
    (ds : List RescribeCommit)
    (hndS : (hashes.map (fun x => strTake x 7)).Nodup)
    (hne : ∀ x ∈ hashes, x ≠ "")
    (hnc : ∀ x ∈ hashes, ':' ∉ x.data)
    (hinfo : ∀ x ∈ hashes, ∃ info, gci x = some info ∧
      gci (strTake x 7) = some info ∧ gth (strTake x 7) = some info.tree)
    (htopo : ∀ i h info, hashes.get? i = some h → gci h = some info →
      ∀ p ∈ info.parents, ∀ pi, hashes.get? pi = some p → pi < i)
    (hok : convertGitGraph gci hashes = .ok ds) :
    ∀ m k, k + m = hashes.length →
      ∃ plans, planFold ⟨gci, gth⟩ (ds.drop k)
          ⟨shortId (hashes.take k), cursorAt hashes k⟩ =
        .ok (plans, ⟨shortId hashes, cursorAt hashes hashes.length⟩) ∧
      plans.length = m ∧
      (∀ cp ∈ plans, cp.action = .reuse) ∧
      plans.map (fun cp => cp.originalHash) =
        (hashes.drop k).map (fun x => some (strTake x 7)) := by
  have hdsl : ds.length = hashes.length := by
    rcases convertEach_ok gci (buildIndexMap hashes) hashes.enum ds hok with
      ⟨hl, -⟩
    rw [hl, List.enum_length]
  intro m
  induction m with
  | zero =>
    intro k hk
    rw [Nat.add_zero] at hk
    subst hk
    refine ⟨[], ?_, rfl, ?_, ?_⟩
    · rw [List.drop_eq_nil_of_le (le_of_eq hdsl), List.take_length]
      rfl
    · intro cp hcp
      exact absurd hcp (List.not_mem_nil cp)
    · rw [List.drop_eq_nil_of_le (le_of_eq rfl)]
      rfl
  | succ m ih =>
    intro k hk
    have hklt : k < hashes.length := by omega
    have hkd : k < ds.length := by omega
    have hgk : hashes.get? k = some (hashes.get ⟨k, hklt⟩) :=
      List.get?_eq_get hklt
    set h := hashes.get ⟨k, hklt⟩ with hh
    have hmem : h ∈ hashes := List.get?_mem hgk
    rcases hinfo h hmem with ⟨info, hgci, hgshort, hgtree⟩
    have henum : hashes.enum.get? k = some (k, h) := by
      rw [List.get?_enum, hgk]
      rfl
    rcases convertEach_ok gci (buildIndexMap hashes) hashes.enum ds hok with
      ⟨-, hall⟩
    rcases hall k (k, h) henum with ⟨info', hinfo', hds'⟩
    rw [hgci] at hinfo'
    injection hinfo' with hinfo'
    subst hinfo'
    have hdk : ds.drop k = descriptorFor (buildIndexMap hashes) (k, h) info ::
        ds.drop (k + 1) := by
      rw [List.drop_eq_get_cons hkd]
      congr 1
      have := List.get?_eq_get hkd
      rw [hds'] at this
      injection this with hv
      exact hv.symm
    have hstep := planOne_fresh gci gth hashes k h info hndS hne hnc hgk
      hgshort hgtree (fun p hp pi hpi => htopo k h info hgk hgci p hp pi hpi)
    rcases ih (k + 1) (by omega) with ⟨plans, hfold, hlen, hre, hmap⟩
    refine ⟨{ commit := descriptorFor (buildIndexMap hashes) (k, h) info,
              originalHash := some (strTake h 7), action := .reuse,
              changes := [], tree := info.tree,
              parents := info.parents.map (fun p => strTake p 7) } :: plans,
            ?_, ?_, ?_, ?_⟩
    · rw [hdk]
      show planFold _ (_ :: _) _ = _
      unfold planFold
      rw [hstep]
      dsimp only
      have hcur : cursorAt hashes (k + 1) = some (strTake h 7) :=
        cursorAt_succ hashes k h hgk
      rw [← hcur, hfold]
    · rw [List.length_cons, hlen]
    · intro cp hcp
      rcases List.mem_cons.mp hcp with hcp | hcp
      · rw [hcp]
      · exact hre cp hcp
    · rw [show hashes.drop k = h :: hashes.drop (k + 1) from
          List.drop_eq_get_cons hklt, List.map_cons, List.map_cons, hmap]

theorem finishExec_entries (u : Bool) (o : ExecOutcome) :
    (finishExec u o).entries = o.entries := by
  unfold finishExec
  rcases hres : o.result with _ | fc
  · rfl
  rcases fc with _ | fc
  · rfl
  · dsimp only
    by_cases hc : fc ≠ "" ∧ u = true
    · rw [if_pos hc]
    · rw [if_neg hc]

theorem finishExec_trace_sub (u : Bool) (o : ExecOutcome) :
    ∀ e ∈ (finishExec u o).trace,
      e ∈ o.trace ∨ ∃ fc, e = Effect.branchUpdated fc := by
  intro e he
  unfold finishExec at he
  rcases hres : o.result with _ | fc
  · rw [hres] at he
    exact Or.inl he
  rcases fc with _ | fc
  · rw [hres] at he
    exact Or.inl he
  · rw [hres] at he
    dsimp only at he
    by_cases hc : fc ≠ "" ∧ u = true
    · rw [if_pos hc] at he
      rcases List.mem_append.mp he with he | he
      · exact Or.inl he
      · exact Or.inr ⟨fc, List.mem_singleton.mp he⟩
    · rw [if_neg hc] at he
      exact Or.inl he

/-- C2 (corrected): running the Planner on an unmodified plan freshly derived
from the current history yields action = reuse for every entry and the
identity replacement mapping on the original short hashes — one self-pair per
entry, so it is empty only for an empty history, not the empty mapping the
claim states — and running the Executor on that plan creates no new commit
objects: the effect trace holds no commit creation, every entry's resulting
hash equals its original short hash, and the plan preserves all original
hashes. -/
theorem C2_fresh_plan_idempotent (gci : String → Option CommitInfo)
    (gth : String → Option String) (cc : CreateArgs → Option String)
    (updateHead : Bool) (hashes : List String) (ds : List RescribeCommit)
    (hndS : (hashes.map (fun x => strTake x 7)).Nodup)
    (hne : ∀ x ∈ hashes, x ≠ "")
    (hnc : ∀ x ∈ hashes, ':' ∉ x.data)
    (hinfo : ∀ x ∈ hashes, ∃ info, gci x = some info ∧
      gci (strTake x 7) = some info ∧ gth (strTake x 7) = some info.tree)
    (htopo : ∀ i h info, hashes.get? i = some h → gci h = some info →
      ∀ p ∈ info.parents, ∀ pi, hashes.get? pi = some p → pi < i)
    (hok : convertGitGraph gci hashes = .ok ds) :
    ∃ plans, createPlan ⟨gci, gth⟩ ds = .ok plans ∧
      (∀ cp ∈ plans, cp.action = Action.reuse) ∧
      plans.map (fun cp => cp.originalHash) =
        hashes.map (fun x => some (strTake x 7)) ∧
      planFold ⟨gci, gth⟩ ds ⟨[], none⟩ =
        .ok (plans, ⟨shortId hashes, cursorAt hashes hashes.length⟩) ∧
      (∀ args r, Effect.created args r ∉
        (executeRescribe cc updateHead plans).trace) ∧
      (executeRescribe cc updateHead plans).entries.map (fun e => e.newHash) =
        hashes.map (fun x => strTake x 7) := by
  rcases planFold_fresh gci gth hashes ds hndS hne hnc hinfo htopo hok
      hashes.length 0 (by omega) with ⟨plans, hfold, hlen, hre, hmap⟩
  rw [List.drop_zero] at hfold hmap
  have hfold0 : planFold ⟨gci, gth⟩ ds ⟨[], none⟩ =
      .ok (plans, ⟨shortId hashes, cursorAt hashes hashes.length⟩) := hfold
  rcases execLoop_all_reuse cc plans none [] hre with ⟨ht, hm, fc', hr⟩
  have hplanmap : plans.map (fun cp => cp.originalHash.getD "") =
      hashes.map (fun x => strTake x 7) := by
    rw [show plans.map (fun cp => cp.originalHash.getD "") =
        (plans.map (fun cp => cp.originalHash)).map (fun q => q.getD "") by
      rw [List.map_map]
      rfl]
    rw [hmap, List.map_map]
    rfl
  refine ⟨plans, ?_, hre, hmap, hfold0, ?_, ?_⟩
  · unfold createPlan
    rw [hfold0]
    rfl
  · intro args r hmem
    rcases finishExec_trace_sub updateHead (execLoop cc plans none [])
        (Effect.created args r) hmem with hi | ⟨fc, hfc⟩
    · rw [ht] at hi
      exact absurd hi (List.not_mem_nil _)
    · exact Effect.noConfusion hfc
  · show ((finishExec updateHead (execLoop cc plans none [])).entries).map _ = _
    rw [finishExec_entries, hm, hplanmap]

/-- Live metadata of the single commit of the C2 example repository. -/
def wInfoC2 : CommitInfo :=
  ⟨"Ann", "ann@x", "D1", "Ann", "ann@x", "D1", "t0", [], "m0"⟩

/-- Commit-info oracle of the C2 example repository: the full hash and its
7-character prefix both resolve to the same commit. -/
def wGciC2 : String → Option CommitInfo := fun h =>
  if h = "0123456789" ∨ h = "0123456" then some wInfoC2 else none

/-- Tree-hash oracle of the C2 example repository. -/
def wGthC2 : String → Option String := fun h =>
  if h = "0123456" then some "t0" else none

/-- The rev-list output of the C2 example repository. -/
def wHashesC2 : List String := ["0123456789"]

/-- The descriptor the extractor emits on the C2 example repository. -/
def wDsC2 : List RescribeCommit :=
  [⟨⟨"D1", "Ann <ann@x>"⟩, ⟨"D1", "Ann <ann@x>"⟩, "commit:0123456", "m0", []⟩]

/-- The plan the Planner produces on the C2 example repository. -/
def wPlanC2 : List CommitPlan :=
  [{ commit := ⟨⟨"D1", "Ann <ann@x>"⟩, ⟨"D1", "Ann <ann@x>"⟩,
       "commit:0123456", "m0", []⟩,
     originalHash := some "0123456", action := .reuse, changes := [],
     tree := "t0", parents := [] }]

/-- Refutation of the claim's "empty replacement mapping": a freshly
extracted one-commit history plans as all-reuse, yet the final replacement
mapping is the non-empty identity pair list, not the empty mapping. -/
theorem C2_identity_map_not_empty :
    convertGitGraph wGciC2 wHashesC2 = .ok wDsC2 ∧
    planFold ⟨wGciC2, wGthC2⟩ wDsC2 ⟨[], none⟩ =
      .ok (wPlanC2, ⟨[("0123456", "0123456")], some "0123456"⟩) ∧
    (∀ cp ∈ wPlanC2, cp.action = Action.reuse) ∧
    ([("0123456", "0123456")] : List (String × String)) ≠ [] :=
  ⟨by decide, by decide, by decide, by decide⟩

/-- Witness for the corrected C2 on the concrete one-commit repository: the
hypotheses hold and the all-reuse, identity-map, no-creation conclusion
follows, with a createCommit oracle that would throw if it were ever
called. -/
theorem C2_fresh_plan_idempotent_w :
    ((wHashesC2.map (fun x => strTake x 7)).Nodup ∧
     convertGitGraph wGciC2 wHashesC2 = .ok wDsC2) ∧
    (∃ plans, createPlan ⟨wGciC2, wGthC2⟩ wDsC2 = .ok plans ∧
      (∀ cp ∈ plans, cp.action = Action.reuse) ∧
      plans.map (fun cp => cp.originalHash) =
        wHashesC2.map (fun x => some (strTake x 7)) ∧
      planFold ⟨wGciC2, wGthC2⟩ wDsC2 ⟨[], none⟩ =
        .ok (plans, ⟨shortId wHashesC2, cursorAt wHashesC2 wHashesC2.length⟩) ∧
      (∀ args r, Effect.created args r ∉
        (executeRescribe (fun _ => none) true plans).trace) ∧
      (executeRescribe (fun _ => none) true plans).entries.map
          (fun e => e.newHash) =
        wHashesC2.map (fun x => strTake x 7)) :=
  ⟨⟨by decide, by decide⟩,
   C2_fresh_plan_idempotent wGciC2 wGthC2 (fun _ => none) true wHashesC2 wDsC2
     (by decide) (by decide) (by decide)
     (by
       intro x hx
       rcases List.mem_singleton.mp hx with rfl
       exact ⟨wInfoC2, by decide⟩)
     (by
       intro i h info hgk hgci p hp pi hpi
       rcases i with _ | i
       · rw [show wHashesC2.get? 0 = some "0123456789" from rfl] at hgk
         injection hgk with hgk
         subst hgk
         rw [show wGciC2 "0123456789" = some wInfoC2 from by decide] at hgci
         injection hgci with hgci
         subst hgci
         exact absurd hp (List.not_mem_nil p)
       · exact Option.noConfusion hgk)
     (by decide)⟩

end Rescribe
